import Mathlib

/-!
# Base32 codec of `src/src/base32.h`: shallow embedding and verified properties

Modelling conventions.

* A `uint8_t` is a `Byte := Fin 256`; a `char` is modelled by its byte value, a natural
  number (where `char` is signed the bytes 128..255 are negative, and they fail the range
  tests of `base32_char_to_value` either way).
* A caller-owned buffer (`char* out`, `void* out`) is a `Mem`: a map from the offset inside
  the buffer to the value of the cell.  A C store is `store`.
* The input of the encoder is the list of its bytes; the input of the decoder is the list of
  the characters that stand before the terminating NUL.  Reading the decoder input goes
  through `strRead`, which answers the terminator at offset `length` and nothing beyond.
* `size_t` is 64 bits wide.  The size calculators are pure `size_t` arithmetic and carry
  the reduction modulo `2 ^ 64`.  The loop counters are plain naturals: `i` in the encoder
  and `j` in the decoder only take multiples of 5 below a `size_t` bound, and `2 ^ 64 - 1`
  is itself a multiple of 5, so `+= 5` never wraps; the other counters index buffers that
  exist in memory.
* Loops run on fuel; a function answers `none` when the fuel runs out before the loop
  condition fails (or, in the decoder, when a read falls outside the input string).  The
  entry points supply the fuel and are proved to answer `some`.
-/

namespace Base32

/-! ## Data model -/

/-- An 8-bit unsigned value (`uint8_t`). -/
abbrev Byte := Fin 256

/-- A buffer, addressed by the offset from its base pointer. -/
abbrev Mem := Nat → Nat

/-- The C assignment `m[a] = v`. -/
def store (m : Mem) (a v : Nat) : Mem := fun p => if p = a then v else m p

/-- Character codes of a string literal. -/
def charsOf (s : String) : List Nat := s.toList.map Char.toNat

/-- Bytes of a string literal (test vectors). -/
def bytesOf (s : String) : List Byte := s.toList.map (fun c => Fin.ofNat c.toNat)

/-- `#define BASE32_ALPHABET "ABCDEFGHIJKLMNOPQRSTUVWXYZ234567"`. -/
def BASE32_ALPHABET : List Nat := charsOf ("ABCDEFGHIJKLMNOPQRSTUVWXYZ234567")

/-- `#define BASE32_PADDING_SYMBOL '='` (character code 61). -/
def BASE32_PADDING_SYMBOL : Nat := 61

/-- `#define BASE32_PADDING_ENCOUNTED (-1)`. -/
def BASE32_PADDING_ENCOUNTED : Int := -1

/-- `#define BASE32_INCORRECT_SYMBOL_ENCOUNTED (-2)`. -/
def BASE32_INCORRECT_SYMBOL_ENCOUNTED : Int := -2

/-- `#define BASE32_OUTPUT_LIMIT_REACHED (-3)`. -/
def BASE32_OUTPUT_LIMIT_REACHED : Int := -3

/-- `#define BASE32_OK (0)`. -/
def BASE32_OK : Int := 0

/-- Number of values of `size_t`. -/
def SIZE_MODULUS : Nat := 2 ^ 64

/-- The expression `BASE32_ALPHABET[v]`; the literal is followed by its NUL. -/
def alphabetAt (v : Nat) : Nat := BASE32_ALPHABET.getD v 0

/-! ## Size calculators -/

/-- `base32_encoded_str_len`: `((data_size + 4) / 5) * 8 + 1` in `size_t` arithmetic. -/
def base32_encoded_str_len (data_size : Nat) : Nat :=
  ((((data_size + 4) % SIZE_MODULUS) / 5 * 8) % SIZE_MODULUS + 1) % SIZE_MODULUS

/-- `base32_decoded_data_size`: `(str_len / 8) * 5` in `size_t` arithmetic. -/
def base32_decoded_data_size (str_len : Nat) : Nat :=
  (str_len / 8 * 5) % SIZE_MODULUS

/-! ## Encoder -/

/-- The scratch `buffer` after `memset(buffer, 0, 5); memcpy(buffer, src + i, chank_size)`. -/
def loadChunk (src : List Byte) (i chank_size : Nat) : Nat → Nat :=
  fun t => if t < chank_size then (src.getD (i + t) 0).val else 0

/-- The first `switch(chank_size)` of the encoder. The labels stand in the order
5, 4, 3, 2, 1 and fall through, so the body of `case c` runs iff `c ≤ chank_size ≤ 5`. -/
def encodeSymbols (buffer : Nat → Nat) (chank_size j : Nat) (out : Mem) : Mem :=
  let out := if chank_size = 5 then
      store out (j + 7) (alphabetAt (buffer 4 &&& 0x1F))
    else out
  let out := if 4 ≤ chank_size ∧ chank_size ≤ 5 then
      store
        (store out (j + 6) (alphabetAt (((buffer 3 &&& 0x03) <<< 3) ||| (buffer 4 >>> 5))))
        (j + 5) (alphabetAt ((buffer 3 &&& 0x7C) >>> 2))
    else out
  let out := if 3 ≤ chank_size ∧ chank_size ≤ 5 then
      store out (j + 4) (alphabetAt (((buffer 2 &&& 0x0F) <<< 1) ||| (buffer 3 >>> 7)))
    else out
  let out := if 2 ≤ chank_size ∧ chank_size ≤ 5 then
      store out (j + 3) (alphabetAt (((buffer 1 &&& 0x01) <<< 4) ||| (buffer 2 >>> 4)))
    else out
  if 1 ≤ chank_size ∧ chank_size ≤ 5 then
    store
      (store
        (store out (j + 2) (alphabetAt ((buffer 1 &&& 0x3E) >>> 1)))
        (j + 1) (alphabetAt (((buffer 0 &&& 0x07) <<< 2) ||| (buffer 1 >>> 6))))
      j (alphabetAt (buffer 0 >>> 3))
  else out

/-- The second `switch(chank_size)` of the encoder. The labels stand in the order
1, 2, 3, 4 and fall through, so the body of `case c` runs iff `1 ≤ chank_size ≤ c`. -/
def encodePadding (chank_size j : Nat) (out : Mem) : Mem :=
  let out := if chank_size = 1 then
      store (store out (j + 2) BASE32_PADDING_SYMBOL) (j + 3) BASE32_PADDING_SYMBOL
    else out
  let out := if 1 ≤ chank_size ∧ chank_size ≤ 2 then
      store out (j + 4) BASE32_PADDING_SYMBOL
    else out
  let out := if 1 ≤ chank_size ∧ chank_size ≤ 3 then
      store (store out (j + 5) BASE32_PADDING_SYMBOL) (j + 6) BASE32_PADDING_SYMBOL
    else out
  if 1 ≤ chank_size ∧ chank_size ≤ 4 then
    store out (j + 7) BASE32_PADDING_SYMBOL
  else out

/-- The `for (i = 0, j = 0; i < data_size; i += 5, j += 8)` loop of `base32_encode`
followed by `out[j] = 0`, started at `(i, j)`. -/
def encodeLoop (src : List Byte) (data_size : Nat) : Nat → Nat → Nat → Mem → Option Mem
  | 0, i, j, out => if i < data_size then none else some (store out j 0)
  | fuel + 1, i, j, out =>
    if i < data_size then
      let chank_size := if data_size - i < 5 then data_size - i else 5
      let buffer := loadChunk src i chank_size
      let out := encodeSymbols buffer chank_size j out
      let out := encodePadding chank_size j out
      encodeLoop src data_size fuel (i + 5) (j + 8) out
    else some (store out j 0)

/-- `base32_encode(data, data_size, out)`: the contents of `out` after the call. -/
def base32_encode (data : List Byte) (data_size : Nat) (out : Mem) : Option Mem :=
  encodeLoop data data_size data_size 0 0 out

/-! ## Symbol classifier -/

/-- `base32_char_to_value`: `'A'` = 65, `'Z'` = 90, `'2'` = 50, `'7'` = 55. -/
def base32_char_to_value (ch : Nat) : Int :=
  if 65 ≤ ch ∧ ch ≤ 90 then (ch : Int) - 65
  else if 50 ≤ ch ∧ ch ≤ 55 then 26 + (ch : Int) - 50
  else if ch = BASE32_PADDING_SYMBOL then BASE32_PADDING_ENCOUNTED
  else BASE32_INCORRECT_SYMBOL_ENCOUNTED

/-! ## Decoder -/

/-- The read `str[i]` of a NUL-terminated string whose characters are `str`:
the terminator stands at offset `str.length`, and nothing of the object lies beyond. -/
def strRead (str : List Nat) (i : Nat) : Option Nat :=
  if i < str.length then some (str.getD i 0)
  else if i = str.length then some 0
  else none

/-- How the inner loop of the decoder ends. -/
inductive GroupResult where
  /-- a read outside the string object -/
  | fault : GroupResult
  /-- `return BASE32_INCORRECT_SYMBOL_ENCOUNTED` -/
  | incorrect : GroupResult
  /-- the loop condition failed; the values of `i` and `buffer` then -/
  | done : Nat → (Nat → Nat) → GroupResult

/-- The loop `for (int k = 0; k < 8 && str[i] != 0; k++)` of `base32_decode`, entered with
`rem = 8 - k` iterations to go. -/
def decodeGroup (str : List Nat) : Nat → Nat → Nat → (Nat → Nat) → Bool → GroupResult
  | 0, _, i, buffer, _ => GroupResult.done i buffer
  | rem + 1, k, i, buffer, isPaddingReached =>
    match strRead str i with
    | none => GroupResult.fault
    | some ch =>
      if ch = 0 then GroupResult.done i buffer
      else
        let buffer := store buffer k 0
        let value := base32_char_to_value ch
        if value = BASE32_INCORRECT_SYMBOL_ENCOUNTED then GroupResult.incorrect
        else if value = BASE32_PADDING_ENCOUNTED then
          decodeGroup str rem (k + 1) (i + 1) buffer true
        else if isPaddingReached then GroupResult.incorrect
        else
          decodeGroup str rem (k + 1) (i + 1) (store buffer k (value.toNat % 256))
            isPaddingReached

/-- The `switch` that writes the bytes of one group; `n` is
`(out_limit - j) < 5 ? (out_limit - j) : 5`. The labels stand in the order 5, 4, 3, 2, 1
and fall through. Each store truncates the `int` expression to `uint8_t`. -/
def decodeBytes (buffer : Nat → Nat) (n j : Nat) (out : Mem) : Mem :=
  let out := if n = 5 then
      store out (j + 4) (((buffer 6 <<< 5) ||| buffer 7) % 256)
    else out
  let out := if 4 ≤ n ∧ n ≤ 5 then
      store out (j + 3) (((buffer 4 <<< 7) ||| (buffer 5 <<< 2) ||| (buffer 6 >>> 3)) % 256)
    else out
  let out := if 3 ≤ n ∧ n ≤ 5 then
      store out (j + 2) (((buffer 3 <<< 4) ||| (buffer 4 >>> 1)) % 256)
    else out
  let out := if 2 ≤ n ∧ n ≤ 5 then
      store out (j + 1) (((buffer 1 <<< 6) ||| (buffer 2 <<< 1) ||| (buffer 3 >>> 4)) % 256)
    else out
  if 1 ≤ n ∧ n ≤ 5 then
    store out j (((buffer 0 <<< 3) ||| (buffer 1 >>> 2)) % 256)
  else out

/-- What `base32_decode` hands back: the returned `int` and the contents of `out`. -/
structure DecodeResult where
  /-- the returned code -/
  code : Int
  /-- the output buffer after the call -/
  out : Mem

/-- The loop `for (size_t i = 0, j = 0; j < out_limit; j += 5)` of `base32_decode`
followed by `return BASE32_OK`, started at `(i, j)`. -/
def decodeLoop (str : List Nat) (out_limit : Nat) :
    Nat → Nat → Nat → Mem → Option DecodeResult
  | 0, _, j, out => if j < out_limit then none else some ⟨BASE32_OK, out⟩
  | fuel + 1, i, j, out =>
    if j < out_limit then
      match decodeGroup str 8 0 i (fun _ => 0) false with
      | GroupResult.fault => none
      | GroupResult.incorrect => some ⟨BASE32_INCORRECT_SYMBOL_ENCOUNTED, out⟩
      | GroupResult.done i buffer =>
        let n := if out_limit - j < 5 then out_limit - j else 5
        decodeLoop str out_limit fuel i (j + 5) (decodeBytes buffer n j out)
    else some ⟨BASE32_OK, out⟩

/-- `base32_decode(str, out, out_limit)`. -/
def base32_decode (str : List Nat) (out : Mem) (out_limit : Nat) : Option DecodeResult :=
  decodeLoop str out_limit out_limit 0 0 out

/-! ## Reference definition of the encoding (RFC 4648) -/

/-- Byte `q` of `B`, zero beyond its end (the zero extension of the input). -/
def byteAt (B : List Byte) (q : Nat) : Nat := (B.getD q 0).val

/-- Bit `p` of `B`, the bits of each byte read most-significant-first. -/
def bitAt (B : List Byte) (p : Nat) : Nat := byteAt B (p / 8) / 2 ^ (7 - p % 8) % 2

/-- The value of the bits `5k .. 5k+4` of `B`. -/
def quintetAt (B : List Byte) (k : Nat) : Nat :=
  16 * bitAt B (5 * k) + 8 * bitAt B (5 * k + 1) + 4 * bitAt B (5 * k + 2)
    + 2 * bitAt B (5 * k + 3) + bitAt B (5 * k + 4)

/-- Symbol `k` of the reference encoding: the alphabet character of quintet `k` for
`k < ceil(8 * len / 5)`, the padding symbol from there on. -/
def rfc4648_symbol (B : List Byte) (k : Nat) : Nat :=
  if k < (8 * B.length + 4) / 5 then alphabetAt (quintetAt B k) else BASE32_PADDING_SYMBOL

/-- The reference encoding of `B`: `ceil(len / 5) * 8` symbols. -/
def rfc4648_encode (B : List Byte) : List Nat :=
  (List.range ((B.length + 4) / 5 * 8)).map (rfc4648_symbol B)

/-! ## Predicates and tables of the claims -/

/-- Memory `m` holds the NUL-terminated string whose characters are `s`. -/
def HoldsCStr (m : Mem) (s : List Nat) : Prop :=
  (∀ k < s.length, m k = s.getD k 0) ∧ m s.length = 0 ∧ ∀ c ∈ s, c ≠ 0

/-- The character classifies as invalid. -/
def IsInvalidChar (c : Nat) : Prop :=
  base32_char_to_value c = BASE32_INCORRECT_SYMBOL_ENCOUNTED

/-- The character is a value character: `A`..`Z` or `2`..`7`. -/
def IsValueChar (c : Nat) : Prop := (65 ≤ c ∧ c ≤ 90) ∨ (50 ≤ c ∧ c ≤ 55)

/-- Position `p` of `s` offends: its character is invalid, or it is a value character
standing after a `=` of the same group of eight. -/
def Offending (s : List Nat) (p : Nat) : Prop :=
  p < s.length ∧
    (IsInvalidChar (s.getD p 0) ∨
      (IsValueChar (s.getD p 0) ∧ ∃ q, 8 * (p / 8) ≤ q ∧ q < p ∧ s.getD q 0 = 61))

/-- Some position among the next `rem` characters from `i` on makes the inner loop fail,
`pad` telling whether a `=` of the group was already seen. -/
def GroupBad (s : List Nat) (i rem : Nat) (pad : Bool) : Prop :=
  ∃ p, i ≤ p ∧ p < i + rem ∧ p < s.length ∧
    (IsInvalidChar (s.getD p 0) ∨
      (IsValueChar (s.getD p 0) ∧ (pad = true ∨ ∃ q, i ≤ q ∧ q < p ∧ s.getD q 0 = 61)))

/-- Byte count of the final chunk of an input of `len > 0` bytes: `len mod 5`, with 0 read
as 5. -/
def finalChunkSize (len : Nat) : Nat := if len % 5 = 0 then 5 else len % 5

/-- The padding table of the spec: bytes in the final chunk to `=` symbols in the final
group. -/
def paddingTable : Nat → Nat
  | 1 => 6
  | 2 => 4
  | 3 => 3
  | 4 => 1
  | _ => 0

/-- The table of the spec: bytes in the final chunk to data symbols in the final group. -/
def dataSymbolTable : Nat → Nat
  | 1 => 2
  | 2 => 4
  | 3 => 5
  | 4 => 7
  | _ => 8

/-- A lowercase letter `a`..`z`. -/
def IsLowercase (c : Nat) : Prop := 97 ≤ c ∧ c ≤ 122

/-- One of the digits `0`, `1`, `8`, `9`. -/
def IsRejectedDigit (c : Nat) : Prop := c = 48 ∨ c = 49 ∨ c = 56 ∨ c = 57

/-- An ASCII punctuation character (`ispunct` in the C locale). -/
def IsPunctuation (c : Nat) : Prop :=
  (33 ≤ c ∧ c ≤ 47) ∨ (58 ≤ c ∧ c ≤ 64) ∨ (91 ≤ c ∧ c ≤ 96) ∨ (123 ≤ c ∧ c ≤ 126)

/-! ## The decoder as a function of its input -/

/-- What the inner loop of the decoder leaves in `buffer[k]` for a character that does not
end the call: the value of a value character, 0 for the padding symbol. -/
def charValue (c : Nat) : Nat :=
  if 0 ≤ base32_char_to_value c then (base32_char_to_value c).toNat % 256 else 0

/-- Entry `r` of the scratch buffer after the inner loop ran over group `g` of `s`: the
value of character `8 * g + r`, 0 where the string has ended. -/
def groupValue (s : List Nat) (g r : Nat) : Nat :=
  if r < 8 ∧ 8 * g + r < s.length then charValue (s.getD (8 * g + r) 0) else 0

/-- Byte `t` (0..4) of a group, by the expressions of the byte-writing `switch`. -/
def groupByte (buffer : Nat → Nat) (t : Nat) : Nat :=
  if t = 0 then ((buffer 0 <<< 3) ||| (buffer 1 >>> 2)) % 256
  else if t = 1 then ((buffer 1 <<< 6) ||| (buffer 2 <<< 1) ||| (buffer 3 >>> 4)) % 256
  else if t = 2 then ((buffer 3 <<< 4) ||| (buffer 4 >>> 1)) % 256
  else if t = 3 then ((buffer 4 <<< 7) ||| (buffer 5 <<< 2) ||| (buffer 6 >>> 3)) % 256
  else ((buffer 6 <<< 5) ||| buffer 7) % 256

/-- Output byte `p` as the decoder computes it from group `p / 5` of `s`. -/
def decodedByte (s : List Nat) (p : Nat) : Nat := groupByte (groupValue s (p / 5)) (p % 5)

/-- The string `s` right-extended with `=` to a length that is a multiple of 8. -/
def padTo8 (s : List Nat) : List Nat :=
  s ++ List.replicate ((8 - s.length % 8) % 8) BASE32_PADDING_SYMBOL

/-! ## Bit-level arithmetic -/

theorem byteAt_lt (B : List Byte) (q : Nat) : byteAt B q < 256 := (B.getD q 0).isLt

theorem byteAt_of_le (B : List Byte) (q : Nat) (h : B.length ≤ q) : byteAt B q = 0 := by
  unfold byteAt
  rw [List.getD_eq_default _ _ h]
  rfl

theorem shl_or (a b n : Nat) (h : b < 2 ^ n) : a <<< n ||| b = a * 2 ^ n + b := by
  rw [Nat.shiftLeft_eq, Nat.mul_comm, ← Nat.mul_add_lt_is_or h]

theorem and_31 (x : Nat) : x &&& 0x1F = x % 32 := Nat.and_pow_two_sub_one_eq_mod x 5
theorem and_3 (x : Nat) : x &&& 0x03 = x % 4 := Nat.and_pow_two_sub_one_eq_mod x 2
theorem and_7 (x : Nat) : x &&& 0x07 = x % 8 := Nat.and_pow_two_sub_one_eq_mod x 3
theorem and_15 (x : Nat) : x &&& 0x0F = x % 16 := Nat.and_pow_two_sub_one_eq_mod x 4
theorem and_1 (x : Nat) : x &&& 0x01 = x % 2 := Nat.and_pow_two_sub_one_eq_mod x 1
theorem and_7C_shr (x : Nat) : (x &&& 0x7C) >>> 2 = x / 4 % 32 := by
  apply Nat.eq_of_testBit_eq
  intro i
  have e : x / 4 % 32 = (x >>> 2) % 2 ^ 5 := by norm_num [Nat.shiftRight_eq_div_pow]
  rw [e, Nat.testBit_shiftRight, Nat.testBit_and, Nat.testBit_mod_two_pow,
    Nat.testBit_shiftRight]
  have m : (0x7C : Nat) = 31 <<< 2 := by decide
  have m2 : (31 : Nat) = 2 ^ 5 - 1 := by decide
  rw [m, Nat.testBit_shiftLeft, m2, Nat.testBit_two_pow_sub_one]
  simp [Bool.and_comm]

theorem and_3E_shr (x : Nat) : (x &&& 0x3E) >>> 1 = x / 2 % 32 := by
  apply Nat.eq_of_testBit_eq
  intro i
  have e : x / 2 % 32 = (x >>> 1) % 2 ^ 5 := by norm_num [Nat.shiftRight_eq_div_pow]
  rw [e, Nat.testBit_shiftRight, Nat.testBit_and, Nat.testBit_mod_two_pow,
    Nat.testBit_shiftRight]
  have m : (0x3E : Nat) = 31 <<< 1 := by decide
  have m2 : (31 : Nat) = 2 ^ 5 - 1 := by decide
  rw [m, Nat.testBit_shiftLeft, m2, Nat.testBit_two_pow_sub_one]
  simp [Bool.and_comm]

/-- The eight 5-bit fields the encoder extracts, as arithmetic. -/
theorem enc_fields (x0 x1 x2 x3 x4 : Nat) (h1 : x1 < 256) (h2 : x2 < 256) (h3 : x3 < 256)
    (h4 : x4 < 256) :
    x0 >>> 3 = x0 / 8 ∧
    ((x0 &&& 0x07) <<< 2) ||| (x1 >>> 6) = x0 % 8 * 4 + x1 / 64 ∧
    (x1 &&& 0x3E) >>> 1 = x1 / 2 % 32 ∧
    ((x1 &&& 0x01) <<< 4) ||| (x2 >>> 4) = x1 % 2 * 16 + x2 / 16 ∧
    ((x2 &&& 0x0F) <<< 1) ||| (x3 >>> 7) = x2 % 16 * 2 + x3 / 128 ∧
    (x3 &&& 0x7C) >>> 2 = x3 / 4 % 32 ∧
    ((x3 &&& 0x03) <<< 3) ||| (x4 >>> 5) = x3 % 4 * 8 + x4 / 32 ∧
    x4 &&& 0x1F = x4 % 32 := by
  refine ⟨?_, ?_, and_3E_shr x1, ?_, ?_, and_7C_shr x3, ?_, and_31 x4⟩
  · simp [Nat.shiftRight_eq_div_pow]
  · rw [and_7, Nat.shiftRight_eq_div_pow, shl_or _ _ _ (by norm_num; omega)]; norm_num
  · rw [and_1, Nat.shiftRight_eq_div_pow, shl_or _ _ _ (by norm_num; omega)]; norm_num
  · rw [and_15, Nat.shiftRight_eq_div_pow, shl_or _ _ _ (by norm_num; omega)]; norm_num
  · rw [and_3, Nat.shiftRight_eq_div_pow, shl_or _ _ _ (by norm_num; omega)]; norm_num

theorem quintetAt_chunk (B : List Byte) (c r : Nat) :
    quintetAt B (8 * c + r) =
      16 * (byteAt B (5 * c + (5 * r) / 8) / 2 ^ (7 - (5 * r) % 8) % 2)
      + 8 * (byteAt B (5 * c + (5 * r + 1) / 8) / 2 ^ (7 - (5 * r + 1) % 8) % 2)
      + 4 * (byteAt B (5 * c + (5 * r + 2) / 8) / 2 ^ (7 - (5 * r + 2) % 8) % 2)
      + 2 * (byteAt B (5 * c + (5 * r + 3) / 8) / 2 ^ (7 - (5 * r + 3) % 8) % 2)
      + (byteAt B (5 * c + (5 * r + 4) / 8) / 2 ^ (7 - (5 * r + 4) % 8) % 2) := by
  unfold quintetAt bitAt
  have a0 : (5 * (8 * c + r)) / 8 = 5 * c + (5 * r) / 8 := by omega
  have a1 : (5 * (8 * c + r) + 1) / 8 = 5 * c + (5 * r + 1) / 8 := by omega
  have a2 : (5 * (8 * c + r) + 2) / 8 = 5 * c + (5 * r + 2) / 8 := by omega
  have a3 : (5 * (8 * c + r) + 3) / 8 = 5 * c + (5 * r + 3) / 8 := by omega
  have a4 : (5 * (8 * c + r) + 4) / 8 = 5 * c + (5 * r + 4) / 8 := by omega
  have b0 : (5 * (8 * c + r)) % 8 = (5 * r) % 8 := by omega
  have b1 : (5 * (8 * c + r) + 1) % 8 = (5 * r + 1) % 8 := by omega
  have b2 : (5 * (8 * c + r) + 2) % 8 = (5 * r + 2) % 8 := by omega
  have b3 : (5 * (8 * c + r) + 3) % 8 = (5 * r + 3) % 8 := by omega
  have b4 : (5 * (8 * c + r) + 4) % 8 = (5 * r + 4) % 8 := by omega
  rw [a0, a1, a2, a3, a4, b0, b1, b2, b3, b4]

theorem quintetAt_field0 (B : List Byte) (c : Nat) :
    quintetAt B (8 * c) = byteAt B (5 * c) / 8 := by
  have h0 := byteAt_lt B (5 * c)
  have q := quintetAt_chunk B c 0
  simp only [Nat.reduceMul, Nat.reduceAdd, Nat.reduceDiv, Nat.reduceMod, Nat.reduceSub,
    Nat.reducePow, Nat.add_zero, Nat.div_one] at q
  rw [q]
  omega

theorem quintetAt_field1 (B : List Byte) (c : Nat) :
    quintetAt B (8 * c + 1) = byteAt B (5 * c) % 8 * 4 + byteAt B (5 * c + 1) / 64 := by
  have h0 := byteAt_lt B (5 * c)
  have h1 := byteAt_lt B (5 * c + 1)
  have q := quintetAt_chunk B c 1
  simp only [Nat.reduceMul, Nat.reduceAdd, Nat.reduceDiv, Nat.reduceMod, Nat.reduceSub,
    Nat.reducePow, Nat.add_zero, Nat.div_one] at q
  rw [q]
  omega

theorem quintetAt_field2 (B : List Byte) (c : Nat) :
    quintetAt B (8 * c + 2) = byteAt B (5 * c + 1) / 2 % 32 := by
  have h1 := byteAt_lt B (5 * c + 1)
  have q := quintetAt_chunk B c 2
  simp only [Nat.reduceMul, Nat.reduceAdd, Nat.reduceDiv, Nat.reduceMod, Nat.reduceSub,
    Nat.reducePow, Nat.add_zero, Nat.div_one] at q
  rw [q]
  omega

theorem quintetAt_field3 (B : List Byte) (c : Nat) :
    quintetAt B (8 * c + 3) = byteAt B (5 * c + 1) % 2 * 16 + byteAt B (5 * c + 2) / 16 := by
  have h1 := byteAt_lt B (5 * c + 1)
  have h2 := byteAt_lt B (5 * c + 2)
  have q := quintetAt_chunk B c 3
  simp only [Nat.reduceMul, Nat.reduceAdd, Nat.reduceDiv, Nat.reduceMod, Nat.reduceSub,
    Nat.reducePow, Nat.add_zero, Nat.div_one] at q
  rw [q]
  omega

theorem quintetAt_field4 (B : List Byte) (c : Nat) :
    quintetAt B (8 * c + 4) = byteAt B (5 * c + 2) % 16 * 2 + byteAt B (5 * c + 3) / 128 := by
  have h2 := byteAt_lt B (5 * c + 2)
  have h3 := byteAt_lt B (5 * c + 3)
  have q := quintetAt_chunk B c 4
  simp only [Nat.reduceMul, Nat.reduceAdd, Nat.reduceDiv, Nat.reduceMod, Nat.reduceSub,
    Nat.reducePow, Nat.add_zero, Nat.div_one] at q
  rw [q]
  omega

theorem quintetAt_field5 (B : List Byte) (c : Nat) :
    quintetAt B (8 * c + 5) = byteAt B (5 * c + 3) / 4 % 32 := by
  have h3 := byteAt_lt B (5 * c + 3)
  have q := quintetAt_chunk B c 5
  simp only [Nat.reduceMul, Nat.reduceAdd, Nat.reduceDiv, Nat.reduceMod, Nat.reduceSub,
    Nat.reducePow, Nat.add_zero, Nat.div_one] at q
  rw [q]
  omega

theorem quintetAt_field6 (B : List Byte) (c : Nat) :
    quintetAt B (8 * c + 6) = byteAt B (5 * c + 3) % 4 * 8 + byteAt B (5 * c + 4) / 32 := by
  have h3 := byteAt_lt B (5 * c + 3)
  have h4 := byteAt_lt B (5 * c + 4)
  have q := quintetAt_chunk B c 6
  simp only [Nat.reduceMul, Nat.reduceAdd, Nat.reduceDiv, Nat.reduceMod, Nat.reduceSub,
    Nat.reducePow, Nat.add_zero, Nat.div_one] at q
  rw [q]
  omega

theorem quintetAt_field7 (B : List Byte) (c : Nat) :
    quintetAt B (8 * c + 7) = byteAt B (5 * c + 4) % 32 := by
  have h4 := byteAt_lt B (5 * c + 4)
  have q := quintetAt_chunk B c 7
  simp only [Nat.reduceMul, Nat.reduceAdd, Nat.reduceDiv, Nat.reduceMod, Nat.reduceSub,
    Nat.reducePow, Nat.add_zero, Nat.div_one] at q
  rw [q]
  omega

/-! ## The encoder against the reference definition -/

theorem alphabetAt_eq : ∀ v < 32, alphabetAt v = if v < 26 then 65 + v else 24 + v := by
  decide

theorem loadChunk_eq (B : List Byte) (c n t : Nat) (ht : t < 5)
    (hlen : n < 5 → B.length = 5 * c + n) (hn : n ≤ 5) :
    loadChunk B (5 * c) n t = byteAt B (5 * c + t) := by
  unfold loadChunk
  split_ifs with h
  · rfl
  · rw [byteAt_of_le B _ (by have := hlen (by omega); omega)]

theorem encodeSymbols_1 (b : Nat → Nat) (j : Nat) (out : Mem) :
    encodeSymbols b 1 j out =
      store (store (store out (j + 2) (alphabetAt ((b 1 &&& 0x3E) >>> 1)))
        (j + 1) (alphabetAt (((b 0 &&& 0x07) <<< 2) ||| (b 1 >>> 6))))
        j (alphabetAt (b 0 >>> 3)) := rfl

theorem encodeSymbols_2 (b : Nat → Nat) (j : Nat) (out : Mem) :
    encodeSymbols b 2 j out =
      encodeSymbols b 1 j
        (store out (j + 3) (alphabetAt (((b 1 &&& 0x01) <<< 4) ||| (b 2 >>> 4)))) := rfl

theorem encodeSymbols_3 (b : Nat → Nat) (j : Nat) (out : Mem) :
    encodeSymbols b 3 j out =
      encodeSymbols b 2 j
        (store out (j + 4) (alphabetAt (((b 2 &&& 0x0F) <<< 1) ||| (b 3 >>> 7)))) := rfl

theorem encodeSymbols_4 (b : Nat → Nat) (j : Nat) (out : Mem) :
    encodeSymbols b 4 j out =
      encodeSymbols b 3 j
        (store (store out (j + 6) (alphabetAt (((b 3 &&& 0x03) <<< 3) ||| (b 4 >>> 5))))
          (j + 5) (alphabetAt ((b 3 &&& 0x7C) >>> 2))) := rfl

theorem encodeSymbols_5 (b : Nat → Nat) (j : Nat) (out : Mem) :
    encodeSymbols b 5 j out =
      encodeSymbols b 4 j (store out (j + 7) (alphabetAt (b 4 &&& 0x1F))) := rfl

theorem encodePadding_5 (j : Nat) (out : Mem) : encodePadding 5 j out = out := rfl

theorem encodePadding_4 (j : Nat) (out : Mem) :
    encodePadding 4 j out = store out (j + 7) BASE32_PADDING_SYMBOL := rfl

theorem encodePadding_3 (j : Nat) (out : Mem) :
    encodePadding 3 j out =
      encodePadding 4 j
        (store (store out (j + 5) BASE32_PADDING_SYMBOL) (j + 6) BASE32_PADDING_SYMBOL) := rfl

theorem encodePadding_2 (j : Nat) (out : Mem) :
    encodePadding 2 j out =
      encodePadding 3 j (store out (j + 4) BASE32_PADDING_SYMBOL) := rfl

theorem encodePadding_1 (j : Nat) (out : Mem) :
    encodePadding 1 j out =
      encodePadding 2 j
        (store (store out (j + 2) BASE32_PADDING_SYMBOL) (j + 3) BASE32_PADDING_SYMBOL) := rfl

theorem store_same (m : Mem) (a v : Nat) : store m a v a = v := by simp [store]

theorem store_ne (m : Mem) (a v p : Nat) (h : p ≠ a) : store m a v p = m p := by
  simp [store, h]

theorem encodeSymbols_frame (b : Nat → Nat) (n j : Nat) (m : Mem) (p : Nat)
    (hp : p < j ∨ j + 8 ≤ p) : encodeSymbols b n j m p = m p := by
  have hq0 : p ≠ j := by omega
  have hq1 : p ≠ j + 1 := by omega
  have hq2 : p ≠ j + 2 := by omega
  have hq3 : p ≠ j + 3 := by omega
  have hq4 : p ≠ j + 4 := by omega
  have hq5 : p ≠ j + 5 := by omega
  have hq6 : p ≠ j + 6 := by omega
  have hq7 : p ≠ j + 7 := by omega
  unfold encodeSymbols
  split_ifs <;> simp only [store_ne _ _ _ _ hq0, store_ne _ _ _ _ hq1, store_ne _ _ _ _ hq2,
    store_ne _ _ _ _ hq3, store_ne _ _ _ _ hq4, store_ne _ _ _ _ hq5, store_ne _ _ _ _ hq6,
    store_ne _ _ _ _ hq7]

theorem encodePadding_frame (n j : Nat) (m : Mem) (p : Nat)
    (hp : p < j ∨ j + 8 ≤ p) : encodePadding n j m p = m p := by
  have hq2 : p ≠ j + 2 := by omega
  have hq3 : p ≠ j + 3 := by omega
  have hq4 : p ≠ j + 4 := by omega
  have hq5 : p ≠ j + 5 := by omega
  have hq6 : p ≠ j + 6 := by omega
  have hq7 : p ≠ j + 7 := by omega
  unfold encodePadding
  split_ifs <;> simp only [store_ne _ _ _ _ hq2,
    store_ne _ _ _ _ hq3, store_ne _ _ _ _ hq4, store_ne _ _ _ _ hq5, store_ne _ _ _ _ hq6,
    store_ne _ _ _ _ hq7]

theorem rfc4648_symbol_data (B : List Byte) (k : Nat) (h : k < (8 * B.length + 4) / 5) :
    rfc4648_symbol B k = alphabetAt (quintetAt B k) := if_pos h

theorem rfc4648_symbol_pad (B : List Byte) (k : Nat) (h : ¬ k < (8 * B.length + 4) / 5) :
    rfc4648_symbol B k = 61 := if_neg h

set_option maxHeartbeats 1000000 in
/-- One iteration of the encoder loop writes the eight reference symbols of chunk `c` and
touches nothing else. -/
theorem encode_chunk_at (B : List Byte) (c n : Nat) (m : Mem) (h1 : 1 ≤ n) (h5 : n ≤ 5)
    (hlen : n < 5 → B.length = 5 * c + n) (hfull : n = 5 → 5 * c + 5 ≤ B.length) (p : Nat) :
    encodePadding n (8 * c) (encodeSymbols (loadChunk B (5 * c) n) n (8 * c) m) p =
      if 8 * c ≤ p ∧ p < 8 * c + 8 then rfc4648_symbol B p else m p := by
  by_cases hin : 8 * c ≤ p ∧ p < 8 * c + 8
  swap
  · rw [if_neg hin, encodePadding_frame _ _ _ _ (by omega), encodeSymbols_frame _ _ _ _ _ (by omega)]
  rw [if_pos hin]
  have b0 : loadChunk B (5 * c) n 0 = byteAt B (5 * c) := loadChunk_eq B c n 0 (by omega) hlen h5
  have b1 := loadChunk_eq B c n 1 (by omega) hlen h5
  have b2 := loadChunk_eq B c n 2 (by omega) hlen h5
  have b3 := loadChunk_eq B c n 3 (by omega) hlen h5
  have b4 := loadChunk_eq B c n 4 (by omega) hlen h5
  obtain ⟨e0, e1, e2, e3, e4, e5, e6, e7⟩ :=
    enc_fields (byteAt B (5 * c)) (byteAt B (5 * c + 1)) (byteAt B (5 * c + 2))
      (byteAt B (5 * c + 3)) (byteAt B (5 * c + 4)) (byteAt_lt _ _) (byteAt_lt _ _)
      (byteAt_lt _ _) (byteAt_lt _ _)
  have hp : p = 8 * c ∨ p = 8 * c + 1 ∨ p = 8 * c + 2 ∨ p = 8 * c + 3 ∨
      p = 8 * c + 4 ∨ p = 8 * c + 5 ∨ p = 8 * c + 6 ∨ p = 8 * c + 7 := by
    omega
  have hn : n = 1 ∨ n = 2 ∨ n = 3 ∨ n = 4 ∨ n = 5 := by omega
  clear hin
  rcases hn with hn | hn | hn | hn | hn <;> subst hn <;>
    simp only [encodeSymbols_5, encodeSymbols_4, encodeSymbols_3, encodeSymbols_2,
      encodeSymbols_1, encodePadding_1, encodePadding_2, encodePadding_3, encodePadding_4,
      encodePadding_5, b0, b1, b2, b3, b4, e0, e1, e2, e3, e4, e5, e6, e7] <;>
    rw [← quintetAt_field0 B c, ← quintetAt_field1 B c] <;>
    (try rw [← quintetAt_field2 B c]) <;>
    (try rw [← quintetAt_field3 B c]) <;>
    (try rw [← quintetAt_field4 B c]) <;>
    (try rw [← quintetAt_field5 B c]) <;>
    (try rw [← quintetAt_field6 B c]) <;>
    (try rw [← quintetAt_field7 B c]) <;>
    clear e0 e1 e2 e3 e4 e5 e6 e7 b0 b1 b2 b3 b4 <;>
    rcases hp with hp | hp | hp | hp | hp | hp | hp | hp <;>
    subst hp <;>
    (first
      | rw [rfc4648_symbol_data B _ (by omega)]
      | rw [rfc4648_symbol_pad B _ (by omega)]) <;>
    simp [store, BASE32_PADDING_SYMBOL]

/-- The encoder loop, started at chunk `c` with the first `8 * c` symbols in place, leaves
the reference symbols followed by the terminator and touches nothing behind it. -/
theorem encodeLoop_spec (B : List Byte) (out : Mem) :
    ∀ (fuel c : Nat) (m : Mem), B.length ≤ 5 * c + 5 * fuel → 5 * c ≤ B.length + 4 →
      (∀ p, m p = if p < 8 * c then rfc4648_symbol B p else out p) →
      ∃ m', encodeLoop B B.length fuel (5 * c) (8 * c) m = some m' ∧
        ∀ p, m' p = if p < (B.length + 4) / 5 * 8 then rfc4648_symbol B p
          else if p = (B.length + 4) / 5 * 8 then 0 else out p := by
  intro fuel
  induction fuel with
  | zero =>
    intro c m hf hc hm
    have hL : (B.length + 4) / 5 * 8 = 8 * c := by omega
    refine ⟨store m (8 * c) 0, ?_, ?_⟩
    · simp only [encodeLoop]
      rw [if_neg (by omega)]
    · intro p
      rw [hL]
      simp only [store]
      rw [hm p]
      split_ifs <;> first | rfl | (exfalso; omega)
  | succ fuel ih =>
    intro c m hf hc hm
    by_cases hlt : 5 * c < B.length
    · simp only [encodeLoop]
      rw [if_pos hlt]
      have e5 : 5 * c + 5 = 5 * (c + 1) := by ring
      have e8 : 8 * c + 8 = 8 * (c + 1) := by ring
      rw [e5, e8]
      apply ih (c + 1)
      · omega
      · omega
      · intro p
        rw [encode_chunk_at B c _ m (by split_ifs <;> omega) (by split_ifs <;> omega)
          (by split_ifs <;> omega) (by split_ifs <;> omega) p, hm p]
        split_ifs <;> first | rfl | (exfalso; omega)
    · have hL : (B.length + 4) / 5 * 8 = 8 * c := by omega
      refine ⟨store m (8 * c) 0, ?_, ?_⟩
      · simp only [encodeLoop]
        rw [if_neg hlt]
      · intro p
        rw [hL]
        simp only [store]
        rw [hm p]
        split_ifs <;> first | rfl | (exfalso; omega)

/-- What `base32_encode` leaves in `out`: the reference symbols, the terminator, and the
old contents behind the terminator. -/
theorem base32_encode_spec (B : List Byte) (out : Mem) :
    ∃ m', base32_encode B B.length out = some m' ∧
      ∀ p, m' p = if p < (B.length + 4) / 5 * 8 then rfc4648_symbol B p
        else if p = (B.length + 4) / 5 * 8 then 0 else out p := by
  have h := encodeLoop_spec B out B.length 0 out (by omega) (by omega) (by intro p; simp)
  simpa [base32_encode] using h

/-! ## The decoder on the encoder output -/

theorem or_of_mul (a b n : Nat) (h : b < 2 ^ n) : a * 2 ^ n ||| b = a * 2 ^ n + b := by
  rw [Nat.mul_comm, ← Nat.mul_add_lt_is_or h]

/-- The five byte expressions of the decoder, as arithmetic. -/
theorem dec_fields (v0 v1 v2 v3 v4 v5 v6 v7 : Nat) (h1 : v1 < 32) (h2 : v2 < 32)
    (h3 : v3 < 32) (h4 : v4 < 32) (h5 : v5 < 32) (h6 : v6 < 32) (h7 : v7 < 32) :
    (v0 <<< 3) ||| (v1 >>> 2) = v0 * 8 + v1 / 4 ∧
    (v1 <<< 6) ||| (v2 <<< 1) ||| (v3 >>> 4) = v1 * 64 + v2 * 2 + v3 / 16 ∧
    (v3 <<< 4) ||| (v4 >>> 1) = v3 * 16 + v4 / 2 ∧
    (v4 <<< 7) ||| (v5 <<< 2) ||| (v6 >>> 3) = v4 * 128 + v5 * 4 + v6 / 8 ∧
    (v6 <<< 5) ||| v7 = v6 * 32 + v7 := by
  refine ⟨?_, ?_, ?_, ?_, ?_⟩
  · rw [Nat.shiftRight_eq_div_pow, shl_or _ _ _ (by norm_num; omega)]; norm_num
  · rw [Nat.shiftRight_eq_div_pow, Nat.shiftLeft_eq v2, shl_or _ _ _ (by norm_num; omega)]
    have e : v1 * 2 ^ 6 + v2 * 2 ^ 1 = (v1 * 32 + v2) * 2 ^ 1 := by ring
    rw [e, or_of_mul _ _ _ (by norm_num; omega)]
    norm_num
    omega
  · rw [Nat.shiftRight_eq_div_pow, shl_or _ _ _ (by norm_num; omega)]; norm_num
  · rw [Nat.shiftRight_eq_div_pow, Nat.shiftLeft_eq v5, shl_or _ _ _ (by norm_num; omega)]
    have e : v4 * 2 ^ 7 + v5 * 2 ^ 2 = (v4 * 32 + v5) * 2 ^ 2 := by ring
    rw [e, or_of_mul _ _ _ (by norm_num; omega)]
    norm_num
    omega
  · rw [shl_or _ _ _ (by norm_num; omega)]; norm_num

theorem bitAt_lt (B : List Byte) (p : Nat) : bitAt B p < 2 := Nat.mod_lt _ (by norm_num)

theorem quintetAt_lt (B : List Byte) (k : Nat) : quintetAt B k < 32 := by
  unfold quintetAt
  have h0 := bitAt_lt B (5 * k)
  have h1 := bitAt_lt B (5 * k + 1)
  have h2 := bitAt_lt B (5 * k + 2)
  have h3 := bitAt_lt B (5 * k + 3)
  have h4 := bitAt_lt B (5 * k + 4)
  omega

theorem bitAt_of_le (B : List Byte) (p : Nat) (h : 8 * B.length ≤ p) : bitAt B p = 0 := by
  unfold bitAt
  rw [byteAt_of_le B _ (by omega)]
  simp

theorem quintetAt_pad (B : List Byte) (k : Nat) (h : ¬ k < (8 * B.length + 4) / 5) :
    quintetAt B k = 0 := by
  unfold quintetAt
  rw [bitAt_of_le B _ (by omega), bitAt_of_le B _ (by omega), bitAt_of_le B _ (by omega),
    bitAt_of_le B _ (by omega), bitAt_of_le B _ (by omega)]

/-- The bytes the decoder rebuilds from the quintets of group `g` are the bytes of chunk `g`
(zero beyond the end of the data). -/
theorem dec_bytes_of_quintets (B : List Byte) (g : Nat) (buf : Nat → Nat)
    (hb : ∀ r < 8, buf r = quintetAt B (8 * g + r)) :
    ((buf 0 <<< 3) ||| (buf 1 >>> 2)) % 256 = byteAt B (5 * g) ∧
    ((buf 1 <<< 6) ||| (buf 2 <<< 1) ||| (buf 3 >>> 4)) % 256 = byteAt B (5 * g + 1) ∧
    ((buf 3 <<< 4) ||| (buf 4 >>> 1)) % 256 = byteAt B (5 * g + 2) ∧
    ((buf 4 <<< 7) ||| (buf 5 <<< 2) ||| (buf 6 >>> 3)) % 256 = byteAt B (5 * g + 3) ∧
    ((buf 6 <<< 5) ||| buf 7) % 256 = byteAt B (5 * g + 4) := by
  have x0 := byteAt_lt B (5 * g)
  have x1 := byteAt_lt B (5 * g + 1)
  have x2 := byteAt_lt B (5 * g + 2)
  have x3 := byteAt_lt B (5 * g + 3)
  have x4 := byteAt_lt B (5 * g + 4)
  have q0 : buf 0 = byteAt B (5 * g) / 8 := by
    rw [hb 0 (by omega), Nat.add_zero, quintetAt_field0]
  have q1 := (hb 1 (by omega)).trans (quintetAt_field1 B g)
  have q2 := (hb 2 (by omega)).trans (quintetAt_field2 B g)
  have q3 := (hb 3 (by omega)).trans (quintetAt_field3 B g)
  have q4 := (hb 4 (by omega)).trans (quintetAt_field4 B g)
  have q5 := (hb 5 (by omega)).trans (quintetAt_field5 B g)
  have q6 := (hb 6 (by omega)).trans (quintetAt_field6 B g)
  have q7 := (hb 7 (by omega)).trans (quintetAt_field7 B g)
  obtain ⟨d0, d1, d2, d3, d4⟩ := dec_fields (buf 0) (buf 1) (buf 2) (buf 3) (buf 4) (buf 5)
    (buf 6) (buf 7) (by omega) (by omega) (by omega) (by omega) (by omega) (by omega)
    (by omega)
  rw [d0, d1, d2, d3, d4]
  refine ⟨?_, ?_, ?_, ?_, ?_⟩
  · clear d0 d1 d2 d3 d4 q2 q3 q4 q5 q6 q7 hb
    omega
  · clear d0 d1 d2 d3 d4 q0 q4 q5 q6 q7 hb
    omega
  · clear d0 d1 d2 d3 d4 q0 q1 q2 q5 q6 q7 hb
    omega
  · clear d0 d1 d2 d3 d4 q0 q1 q2 q3 q7 hb
    omega
  · clear d0 d1 d2 d3 d4 q0 q1 q2 q3 q4 q5 hb
    omega

theorem char_to_value_alphabet (v : Nat) (h : v < 32) :
    base32_char_to_value (alphabetAt v) = (v : Int) := by
  rw [alphabetAt_eq v h]
  unfold base32_char_to_value
  split_ifs <;> omega

theorem alphabetAt_ne_zero (v : Nat) (h : v < 32) : alphabetAt v ≠ 0 := by
  rw [alphabetAt_eq v h]
  split_ifs <;> omega

theorem alphabetAt_ne_pad (v : Nat) (h : v < 32) : alphabetAt v ≠ 61 := by
  rw [alphabetAt_eq v h]
  split_ifs <;> omega

theorem char_to_value_pad : base32_char_to_value 61 = BASE32_PADDING_ENCOUNTED := by decide

/-- The inner loop of the decoder on a group of eight characters: `d` alphabet symbols
followed by padding. -/
theorem decodeGroup_wellformed (s : List Nat) (i0 d : Nat) (v : Nat → Nat)
    (hv : ∀ r, v r < 32)
    (hread : ∀ r < 8, strRead s (i0 + r) = some (if r < d then alphabetAt (v r) else 61)) :
    ∀ (rem k : Nat) (buffer : Nat → Nat) (pad : Bool), k + rem = 8 →
      (pad = true ↔ d < k) → (∀ r, buffer r = if r < k ∧ r < d then v r else 0) →
      ∃ buf, decodeGroup s rem k (i0 + k) buffer pad = GroupResult.done (i0 + 8) buf ∧
        ∀ r, buf r = if r < 8 ∧ r < d then v r else 0 := by
  intro rem
  induction rem with
  | zero =>
    intro k buffer pad hk _ hb
    have : k = 8 := by omega
    subst this
    exact ⟨buffer, rfl, hb⟩
  | succ rem ih =>
    intro k buffer pad hk hp hb
    simp only [decodeGroup]
    rw [hread k (by omega)]
    by_cases hd : k < d
    · have hpad : pad = false := by
        cases pad
        · rfl
        · exfalso; have := hp.mp rfl; omega
      subst hpad
      simp only [if_pos hd, if_neg (alphabetAt_ne_zero _ (hv k)), char_to_value_alphabet _ (hv k)]
      have hv32 := hv k
      rw [if_neg (by unfold BASE32_INCORRECT_SYMBOL_ENCOUNTED; omega),
        if_neg (by unfold BASE32_PADDING_ENCOUNTED; omega)]
      simp only [Bool.false_eq_true, if_false, Int.toNat_ofNat]
      rw [Nat.add_assoc]
      apply ih (k + 1)
      · omega
      · constructor
        · intro h; cases h
        · intro h; omega
      · intro r
        simp only [store]
        rw [hb r]
        split_ifs <;> first | rfl | omega | (exfalso; omega) | (subst_vars; omega)
    · simp only [if_neg hd, char_to_value_pad]
      rw [if_neg (by decide), if_neg (by decide), if_pos trivial]
      rw [Nat.add_assoc]
      apply ih (k + 1)
      · omega
      · constructor
        · intro _; omega
        · intro _; rfl
      · intro r
        simp only [store]
        rw [hb r]
        split_ifs <;> first | rfl | omega

theorem rfc4648_encode_length (B : List Byte) :
    (rfc4648_encode B).length = (B.length + 4) / 5 * 8 := by
  simp [rfc4648_encode]

theorem rfc4648_encode_getD (B : List Byte) (i : Nat) (h : i < (B.length + 4) / 5 * 8) :
    (rfc4648_encode B).getD i 0 = rfc4648_symbol B i := by
  have hl : i < (rfc4648_encode B).length := by rw [rfc4648_encode_length]; exact h
  rw [List.getD_eq_getElem _ _ hl]
  simp [rfc4648_encode]

theorem strRead_encode_lt (B : List Byte) (i : Nat) (h : i < (B.length + 4) / 5 * 8) :
    strRead (rfc4648_encode B) i = some (rfc4648_symbol B i) := by
  unfold strRead
  rw [rfc4648_encode_length, if_pos h, rfc4648_encode_getD B i h]

theorem strRead_encode_end (B : List Byte) :
    strRead (rfc4648_encode B) ((B.length + 4) / 5 * 8) = some 0 := by
  unfold strRead
  rw [rfc4648_encode_length, if_neg (by omega), if_pos rfl]

/-- On the encoder output the inner loop of the decoder recovers the quintets of group `g`
(all zero once the string is exhausted). -/
theorem decodeGroup_of_encode (B : List Byte) (g : Nat) :
    ∃ buf, decodeGroup (rfc4648_encode B) 8 0 (min (8 * g) ((B.length + 4) / 5 * 8))
        (fun _ => 0) false
        = GroupResult.done (min (8 * (g + 1)) ((B.length + 4) / 5 * 8)) buf ∧
      ∀ r < 8, buf r = quintetAt B (8 * g + r) := by
  by_cases hg : 8 * g < (B.length + 4) / 5 * 8
  · obtain ⟨buf, h1, h2⟩ := decodeGroup_wellformed (rfc4648_encode B) (8 * g)
      ((8 * B.length + 4) / 5 - 8 * g) (fun r => quintetAt B (8 * g + r))
      (fun r => quintetAt_lt B _)
      (by
        intro r hr
        rw [strRead_encode_lt B _ (by omega)]
        unfold rfc4648_symbol BASE32_PADDING_SYMBOL
        congr 1
        split_ifs <;> first | rfl | (exfalso; omega))
      8 0 (fun _ => 0) false (by omega) (by simp) (by intro r; simp)
    refine ⟨buf, ?_, ?_⟩
    · rw [Nat.min_eq_left (by omega), Nat.min_eq_left (by omega)]
      rw [Nat.add_zero] at h1
      rw [h1]
      congr 1
    · intro r hr
      rw [h2 r]
      split_ifs with hc
      · rfl
      · rw [quintetAt_pad B _ (by omega)]
  · refine ⟨fun _ => 0, ?_, ?_⟩
    · rw [Nat.min_eq_right (by omega), Nat.min_eq_right (by omega)]
      simp [decodeGroup, strRead_encode_end]
    · intro r _
      rw [quintetAt_pad B _ (by omega)]

theorem decodeBytes_0 (b : Nat → Nat) (j : Nat) (out : Mem) : decodeBytes b 0 j out = out := rfl

theorem decodeBytes_1 (b : Nat → Nat) (j : Nat) (out : Mem) :
    decodeBytes b 1 j out = store out j (((b 0 <<< 3) ||| (b 1 >>> 2)) % 256) := rfl

theorem decodeBytes_2 (b : Nat → Nat) (j : Nat) (out : Mem) :
    decodeBytes b 2 j out =
      decodeBytes b 1 j
        (store out (j + 1) (((b 1 <<< 6) ||| (b 2 <<< 1) ||| (b 3 >>> 4)) % 256)) := rfl

theorem decodeBytes_3 (b : Nat → Nat) (j : Nat) (out : Mem) :
    decodeBytes b 3 j out =
      decodeBytes b 2 j (store out (j + 2) (((b 3 <<< 4) ||| (b 4 >>> 1)) % 256)) := rfl

theorem decodeBytes_4 (b : Nat → Nat) (j : Nat) (out : Mem) :
    decodeBytes b 4 j out =
      decodeBytes b 3 j
        (store out (j + 3) (((b 4 <<< 7) ||| (b 5 <<< 2) ||| (b 6 >>> 3)) % 256)) := rfl

theorem decodeBytes_5 (b : Nat → Nat) (j : Nat) (out : Mem) :
    decodeBytes b 5 j out =
      decodeBytes b 4 j (store out (j + 4) (((b 6 <<< 5) ||| b 7) % 256)) := rfl

/-- The byte-writing switch stores the first `n` bytes of chunk `g` and touches nothing
else. -/
theorem decodeBytes_of_quintets (B : List Byte) (g n : Nat) (buf : Nat → Nat) (out : Mem)
    (hb : ∀ r < 8, buf r = quintetAt B (8 * g + r)) (hn : n ≤ 5) (p : Nat) :
    decodeBytes buf n (5 * g) out p =
      if 5 * g ≤ p ∧ p < 5 * g + n then byteAt B p else out p := by
  obtain ⟨d0, d1, d2, d3, d4⟩ := dec_bytes_of_quintets B g buf hb
  have hcases : n = 0 ∨ n = 1 ∨ n = 2 ∨ n = 3 ∨ n = 4 ∨ n = 5 := by omega
  rcases hcases with h | h | h | h | h | h <;> subst h <;>
    simp only [decodeBytes_5, decodeBytes_4, decodeBytes_3, decodeBytes_2, decodeBytes_1,
      decodeBytes_0, d0, d1, d2, d3, d4, store] <;>
    split_ifs <;>
    first
    | rfl
    | (subst_vars; rfl)
    | (exfalso; omega)

/-- Decoding the encoder output from group `g` on: the call succeeds and the first
`out_limit` cells are the bytes of `B`, zero-extended. -/
theorem decodeLoop_of_encode (B : List Byte) (dec : Mem) (lim : Nat) :
    ∀ (fuel g : Nat) (m : Mem), lim ≤ 5 * g + 5 * fuel →
      (∀ p, m p = if p < 5 * g ∧ p < lim then byteAt B p else dec p) →
      ∃ r, decodeLoop (rfc4648_encode B) lim fuel (min (8 * g) ((B.length + 4) / 5 * 8))
          (5 * g) m = some r ∧ r.code = BASE32_OK ∧
        ∀ p, r.out p = if p < lim then byteAt B p else dec p := by
  intro fuel
  induction fuel with
  | zero =>
    intro g m hf hm
    refine ⟨⟨BASE32_OK, m⟩, ?_, rfl, ?_⟩
    · simp only [decodeLoop]
      rw [if_neg (by omega)]
    · intro p
      show m p = _
      rw [hm p]
      split_ifs <;> first | rfl | (exfalso; omega)
  | succ fuel ih =>
    intro g m hf hm
    by_cases hlt : 5 * g < lim
    · obtain ⟨buf, hg, hb⟩ := decodeGroup_of_encode B g
      simp only [decodeLoop]
      rw [if_pos hlt, hg]
      have e5 : 5 * g + 5 = 5 * (g + 1) := by ring
      simp only [e5]
      apply ih (g + 1)
      · omega
      · intro p
        rw [decodeBytes_of_quintets B g _ buf m hb (by split_ifs <;> omega) p, hm p]
        split_ifs <;> first | rfl | (exfalso; omega)
    · refine ⟨⟨BASE32_OK, m⟩, ?_, rfl, ?_⟩
      · simp only [decodeLoop]
        rw [if_neg hlt]
      · intro p
        show m p = _
        rw [hm p]
        split_ifs <;> first | rfl | (exfalso; omega)

/-- Decoding the reference encoding of `B`. -/
theorem base32_decode_of_encode (B : List Byte) (dec : Mem) (lim : Nat) :
    ∃ r, base32_decode (rfc4648_encode B) dec lim = some r ∧ r.code = BASE32_OK ∧
      ∀ p, r.out p = if p < lim then byteAt B p else dec p := by
  have h := decodeLoop_of_encode B dec lim lim 0 dec (by omega) (by intro p; simp)
  simpa [base32_decode] using h

/-! ## The decoder on arbitrary strings -/

theorem char_class (c : Nat) :
    (IsValueChar c ∧ ∃ v : Nat, v < 32 ∧ base32_char_to_value c = (v : Int)) ∨
    (c = 61 ∧ base32_char_to_value c = -1) ∨
    (¬ IsValueChar c ∧ c ≠ 61 ∧ base32_char_to_value c = -2) := by
  unfold IsValueChar base32_char_to_value BASE32_PADDING_SYMBOL BASE32_PADDING_ENCOUNTED
    BASE32_INCORRECT_SYMBOL_ENCOUNTED
  by_cases h1 : 65 ≤ c ∧ c ≤ 90
  · left
    rw [if_pos h1]
    exact ⟨Or.inl h1, c - 65, by omega, by omega⟩
  · by_cases h2 : 50 ≤ c ∧ c ≤ 55
    · left
      rw [if_neg h1, if_pos h2]
      exact ⟨Or.inr h2, 26 + c - 50, by omega, by omega⟩
    · right
      rw [if_neg h1, if_neg h2]
      by_cases h3 : c = 61
      · left
        rw [if_pos h3]
        exact ⟨h3, rfl⟩
      · right
        rw [if_neg h3]
        exact ⟨by tauto, h3, rfl⟩

theorem isInvalidChar_iff (c : Nat) : IsInvalidChar c ↔ ¬ IsValueChar c ∧ c ≠ 61 := by
  unfold IsInvalidChar BASE32_INCORRECT_SYMBOL_ENCOUNTED
  rcases char_class c with ⟨hv, v, _, h⟩ | ⟨hc, h⟩ | ⟨hv, hc, h⟩
  · rw [h]
    constructor
    · intro h'; omega
    · intro h'; exact absurd hv h'.1
  · rw [h]
    constructor
    · intro h'; omega
    · intro h'; exact absurd hc h'.2
  · rw [h]
    exact ⟨fun _ => ⟨hv, hc⟩, fun _ => rfl⟩

theorem strRead_lt (s : List Nat) (i : Nat) (h : i < s.length) :
    strRead s i = some (s.getD i 0) := by
  unfold strRead
  rw [if_pos h]

theorem strRead_end (s : List Nat) : strRead s s.length = some 0 := by
  unfold strRead
  rw [if_neg (by omega), if_pos rfl]

theorem getD_ne_zero (s : List Nat) (hs : ∀ c ∈ s, c ≠ 0) (i : Nat) (h : i < s.length) :
    s.getD i 0 ≠ 0 := by
  rw [List.getD_eq_getElem _ _ h]
  exact hs _ (List.getElem_mem h)

/-- The inner loop of the decoder on any NUL-free string: it fails exactly when a position
it scans offends, and otherwise consumes the characters up to the end of the group or of
the string. -/
theorem decodeGroup_char (s : List Nat) (hs : ∀ c ∈ s, c ≠ 0) :
    ∀ (rem k i : Nat) (buffer : Nat → Nat) (pad : Bool), i ≤ s.length →
      (GroupBad s i rem pad ∧ decodeGroup s rem k i buffer pad = GroupResult.incorrect) ∨
      (¬ GroupBad s i rem pad ∧
        ∃ buf, decodeGroup s rem k i buffer pad = GroupResult.done (min (i + rem) s.length) buf)
    := by
  intro rem
  induction rem with
  | zero =>
    intro k i buffer pad hi
    right
    refine ⟨?_, buffer, ?_⟩
    · rintro ⟨p, h1, h2, _⟩
      omega
    · simp only [decodeGroup]
      rw [Nat.add_zero, Nat.min_eq_left hi]
  | succ rem ih =>
    intro k i buffer pad hi
    rcases Nat.lt_or_ge i s.length with hlt | hge
    · have hne := getD_ne_zero s hs i hlt
      simp only [decodeGroup, strRead_lt s i hlt, if_neg hne]
      have hmin : min (i + (rem + 1)) s.length = min (i + 1 + rem) s.length := by
        rw [Nat.add_assoc, Nat.add_comm 1 rem]
      rw [hmin]
      rcases char_class (s.getD i 0) with ⟨hv, v, hv32, hval⟩ | ⟨hc, hval⟩ | ⟨hv, hc, hval⟩
      · -- a value character
        have hninv : ¬ IsInvalidChar (s.getD i 0) := by
          rw [isInvalidChar_iff]; tauto
        have hn61 : s.getD i 0 ≠ 61 := by
          unfold IsValueChar at hv; omega
        rw [hval, if_neg (by unfold BASE32_INCORRECT_SYMBOL_ENCOUNTED; omega),
          if_neg (by unfold BASE32_PADDING_ENCOUNTED; omega)]
        cases pad with
        | true =>
          left
          refine ⟨⟨i, le_refl _, by omega, hlt, Or.inr ⟨hv, Or.inl rfl⟩⟩, ?_⟩
          simp
        | false =>
          simp only [Bool.false_eq_true, if_false]
          have key : GroupBad s i (rem + 1) false ↔ GroupBad s (i + 1) rem false := by
            constructor
            · rintro ⟨p, h1, h2, h3, h4⟩
              have hpi : p ≠ i := by
                rintro rfl
                rcases h4 with h4 | ⟨_, h4 | ⟨q, hq1, hq2, _⟩⟩
                · exact hninv h4
                · cases h4
                · omega
              refine ⟨p, by omega, by omega, h3, ?_⟩
              rcases h4 with h4 | ⟨h4, h5 | ⟨q, hq1, hq2, hq3⟩⟩
              · exact Or.inl h4
              · cases h5
              · have hqi : q ≠ i := by
                  rintro rfl
                  exact hn61 hq3
                exact Or.inr ⟨h4, Or.inr ⟨q, by omega, hq2, hq3⟩⟩
            · rintro ⟨p, h1, h2, h3, h4⟩
              refine ⟨p, by omega, by omega, h3, ?_⟩
              rcases h4 with h4 | ⟨h4, h5 | ⟨q, hq1, hq2, hq3⟩⟩
              · exact Or.inl h4
              · cases h5
              · exact Or.inr ⟨h4, Or.inr ⟨q, by omega, hq2, hq3⟩⟩
          rw [key]
          exact ih (k + 1) (i + 1) _ false (by omega)
      · -- the padding symbol
        have hninv : ¬ IsInvalidChar (s.getD i 0) := by
          rw [isInvalidChar_iff]; tauto
        have hnv : ¬ IsValueChar (s.getD i 0) := by
          unfold IsValueChar; omega
        rw [hval, if_neg (by decide), if_pos (by decide)]
        have key : GroupBad s i (rem + 1) pad ↔ GroupBad s (i + 1) rem true := by
          constructor
          · rintro ⟨p, h1, h2, h3, h4⟩
            have hpi : p ≠ i := by
              rintro rfl
              rcases h4 with h4 | ⟨h4, _⟩
              · exact hninv h4
              · exact hnv h4
            refine ⟨p, by omega, by omega, h3, ?_⟩
            rcases h4 with h4 | ⟨h4, _⟩
            · exact Or.inl h4
            · exact Or.inr ⟨h4, Or.inl rfl⟩
          · rintro ⟨p, h1, h2, h3, h4⟩
            refine ⟨p, by omega, by omega, h3, ?_⟩
            rcases h4 with h4 | ⟨h4, _⟩
            · exact Or.inl h4
            · exact Or.inr ⟨h4, Or.inr ⟨i, le_refl _, by omega, hc⟩⟩
        rw [key]
        exact ih (k + 1) (i + 1) _ true (by omega)
      · -- an invalid character
        left
        refine ⟨⟨i, le_refl _, by omega, hlt, Or.inl ?_⟩, ?_⟩
        · rw [isInvalidChar_iff]; exact ⟨hv, hc⟩
        · rw [hval, if_pos (by decide)]
    · have hi' : i = s.length := by omega
      subst hi'
      right
      refine ⟨?_, buffer, ?_⟩
      · rintro ⟨p, h1, _, h3, _⟩
        omega
      · simp only [decodeGroup, strRead_end]
        rw [Nat.min_eq_right (by omega)]
        simp

theorem groupBad_iff_offending (s : List Nat) (g : Nat) :
    GroupBad s (min (8 * g) s.length) 8 false ↔
      ∃ p, 8 * g ≤ p ∧ p < 8 * g + 8 ∧ Offending s p := by
  constructor
  · rintro ⟨p, h1, h2, h3, h4⟩
    have hg : 8 * g ≤ s.length := by omega
    rw [Nat.min_eq_left hg] at h1 h2 h4
    refine ⟨p, h1, h2, h3, ?_⟩
    rcases h4 with h4 | ⟨h4, h5 | ⟨q, hq1, hq2, hq3⟩⟩
    · exact Or.inl h4
    · cases h5
    · exact Or.inr ⟨h4, q, by omega, hq2, hq3⟩
  · rintro ⟨p, h1, h2, h3, h4⟩
    have hg : 8 * g ≤ s.length := by omega
    rw [Nat.min_eq_left hg]
    refine ⟨p, h1, h2, h3, ?_⟩
    rcases h4 with h4 | ⟨h4, q, hq1, hq2, hq3⟩
    · exact Or.inl h4
    · exact Or.inr ⟨h4, Or.inr ⟨q, by omega, hq2, hq3⟩⟩

theorem incorrect_ne_ok : BASE32_INCORRECT_SYMBOL_ENCOUNTED ≠ BASE32_OK := by decide

/-- The decoder loop on a NUL-free string, from group `g` on: it returns, with the error
code exactly when one of the groups it still scans holds an offending position. -/
theorem decodeLoop_char (s : List Nat) (hs : ∀ c ∈ s, c ≠ 0) (lim : Nat) :
    ∀ (fuel g : Nat) (m : Mem), lim ≤ 5 * g + 5 * fuel →
      ∃ r, decodeLoop s lim fuel (min (8 * g) s.length) (5 * g) m = some r ∧
        ((r.code = BASE32_INCORRECT_SYMBOL_ENCOUNTED ∧
            ∃ p, 8 * g ≤ p ∧ p < 8 * ((lim + 4) / 5) ∧ Offending s p) ∨
          (r.code = BASE32_OK ∧
            ¬ ∃ p, 8 * g ≤ p ∧ p < 8 * ((lim + 4) / 5) ∧ Offending s p)) := by
  intro fuel
  induction fuel with
  | zero =>
    intro g m hf
    refine ⟨⟨BASE32_OK, m⟩, ?_, Or.inr ⟨rfl, ?_⟩⟩
    · simp only [decodeLoop]
      rw [if_neg (by omega)]
    · rintro ⟨p, h1, h2, _⟩
      omega
  | succ fuel ih =>
    intro g m hf
    by_cases hlt : 5 * g < lim
    · simp only [decodeLoop]
      rw [if_pos hlt]
      rcases decodeGroup_char s hs 8 0 (min (8 * g) s.length) (fun _ => 0) false
        (Nat.min_le_right _ _) with ⟨hbad, hres⟩ | ⟨hgood, buf, hres⟩
      · rw [hres]
        refine ⟨⟨BASE32_INCORRECT_SYMBOL_ENCOUNTED, m⟩, rfl, Or.inl ⟨rfl, ?_⟩⟩
        obtain ⟨p, h1, h2, h3⟩ := (groupBad_iff_offending s g).mp hbad
        exact ⟨p, h1, by omega, h3⟩
      · rw [hres]
        have emin : min (min (8 * g) s.length + 8) s.length = min (8 * (g + 1)) s.length := by
          omega
        have e5 : 5 * g + 5 = 5 * (g + 1) := by ring
        simp only [emin, e5]
        obtain ⟨r, hr, hcase⟩ := ih (g + 1)
          (decodeBytes buf (if lim - 5 * g < 5 then lim - 5 * g else 5) (5 * g) m) (by omega)
        refine ⟨r, hr, ?_⟩
        rcases hcase with ⟨hc, p, h1, h2, h3⟩ | ⟨hc, hno⟩
        · exact Or.inl ⟨hc, p, by omega, h2, h3⟩
        · refine Or.inr ⟨hc, ?_⟩
          rintro ⟨p, h1, h2, h3⟩
          by_cases hp : p < 8 * g + 8
          · exact hgood ((groupBad_iff_offending s g).mpr ⟨p, h1, hp, h3⟩)
          · exact hno ⟨p, by omega, h2, h3⟩
    · refine ⟨⟨BASE32_OK, m⟩, ?_, Or.inr ⟨rfl, ?_⟩⟩
      · simp only [decodeLoop]
        rw [if_neg hlt]
      · rintro ⟨p, h1, h2, _⟩
        omega

/-- The inner loop of the decoder never reads outside the string: it either fails with the
error code or ends at an offset inside the string. -/
theorem decodeGroup_total (s : List Nat) :
    ∀ (rem k i : Nat) (buffer : Nat → Nat) (pad : Bool), i ≤ s.length →
      decodeGroup s rem k i buffer pad = GroupResult.incorrect ∨
      ∃ i' buf, decodeGroup s rem k i buffer pad = GroupResult.done i' buf ∧ i' ≤ s.length := by
  intro rem
  induction rem with
  | zero =>
    intro k i buffer pad hi
    exact Or.inr ⟨i, buffer, rfl, hi⟩
  | succ rem ih =>
    intro k i buffer pad hi
    rcases Nat.lt_or_ge i s.length with hlt | hge
    · simp only [decodeGroup, strRead_lt s i hlt]
      split_ifs
      · exact Or.inr ⟨i, buffer, rfl, hi⟩
      · exact Or.inl rfl
      · exact ih _ _ _ _ (by omega)
      · exact Or.inl rfl
      · exact ih _ _ _ _ (by omega)
    · have hi' : i = s.length := by omega
      subst hi'
      right
      refine ⟨s.length, buffer, ?_, le_refl _⟩
      simp [decodeGroup, strRead_end]

/-- The decoder loop on any string returns one of the two codes. -/
theorem decodeLoop_total (s : List Nat) (lim : Nat) :
    ∀ (fuel i j : Nat) (m : Mem), lim ≤ j + 5 * fuel → i ≤ s.length →
      ∃ r, decodeLoop s lim fuel i j m = some r ∧
        (r.code = BASE32_OK ∨ r.code = BASE32_INCORRECT_SYMBOL_ENCOUNTED) := by
  intro fuel
  induction fuel with
  | zero =>
    intro i j m hf _
    refine ⟨⟨BASE32_OK, m⟩, ?_, Or.inl rfl⟩
    simp only [decodeLoop]
    rw [if_neg (by omega)]
  | succ fuel ih =>
    intro i j m hf hi
    by_cases hlt : j < lim
    · simp only [decodeLoop]
      rw [if_pos hlt]
      rcases decodeGroup_total s 8 0 i (fun _ => 0) false hi with hres | ⟨i', buf, hres, hi'⟩
      · rw [hres]
        exact ⟨⟨BASE32_INCORRECT_SYMBOL_ENCOUNTED, m⟩, rfl, Or.inr rfl⟩
      · rw [hres]
        exact ih i' (j + 5) _ (by omega) hi'
    · refine ⟨⟨BASE32_OK, m⟩, ?_, Or.inl rfl⟩
      simp only [decodeLoop]
      rw [if_neg hlt]

/-! ## The claims -/

theorem rfc4648_symbol_ne_zero (B : List Byte) (k : Nat) : rfc4648_symbol B k ≠ 0 := by
  unfold rfc4648_symbol BASE32_PADDING_SYMBOL
  split_ifs
  · exact alphabetAt_ne_zero _ (quintetAt_lt B k)
  · decide

theorem rfc4648_encode_ne_zero (B : List Byte) : ∀ c ∈ rfc4648_encode B, c ≠ 0 := by
  intro c hc
  simp only [rfc4648_encode, List.mem_map] at hc
  obtain ⟨k, _, rfl⟩ := hc
  exact rfc4648_symbol_ne_zero B k

/-- The encoder leaves the reference encoding as a NUL-terminated string in `out` and
keeps every cell behind the terminator. -/
theorem base32_encode_holds (B : List Byte) (out : Mem) :
    ∃ enc, base32_encode B B.length out = some enc ∧ HoldsCStr enc (rfc4648_encode B) ∧
      ∀ p, (B.length + 4) / 5 * 8 < p → enc p = out p := by
  obtain ⟨enc, h1, h2⟩ := base32_encode_spec B out
  refine ⟨enc, h1, ⟨?_, ?_, rfc4648_encode_ne_zero B⟩, ?_⟩
  · intro k hk
    rw [rfc4648_encode_length] at hk
    rw [h2 k, if_pos hk, rfc4648_encode_getD B k hk]
  · rw [rfc4648_encode_length, h2, if_neg (by omega), if_pos rfl]
  · intro p hp
    rw [h2 p, if_neg (by omega), if_neg (by omega)]

theorem byteAt_eq_get (B : List Byte) (k : Nat) (hk : k < B.length) :
    byteAt B k = (B.get ⟨k, hk⟩).val := by
  unfold byteAt
  rw [List.getD_eq_getElem _ _ hk]
  rfl

/-- C1. Round trip: for every byte sequence `B` (the empty one included), every prior
content of the two buffers and every `out_limit ≥ len(B)`, `base32_encode` leaves a
NUL-terminated string in its output, and `base32_decode` on that string returns
`BASE32_OK` with the first `len(B)` output bytes equal to `B`. -/
theorem base32_roundtrip (B : List Byte) (out dec : Mem) (out_limit : Nat)
    (h : B.length ≤ out_limit) :
    ∃ enc s r, base32_encode B B.length out = some enc ∧ HoldsCStr enc s ∧
      base32_decode s dec out_limit = some r ∧ r.code = BASE32_OK ∧
      ∀ (k : Nat) (hk : k < B.length), r.out k = (B.get ⟨k, hk⟩).val := by
  obtain ⟨enc, h1, h2, _⟩ := base32_encode_holds B out
  obtain ⟨r, h3, h4, h5⟩ := base32_decode_of_encode B dec out_limit
  refine ⟨enc, rfc4648_encode B, r, h1, h2, h3, h4, ?_⟩
  intro k hk
  rw [h5 k, if_pos (by omega), byteAt_eq_get B k hk]

/-- Witness of C1 on the two bytes of "fo" with a two-byte output limit. -/
theorem base32_roundtrip_witness :
    ([102, 111] : List Byte).length ≤ 2 ∧
    ∃ enc s r, base32_encode ([102, 111] : List Byte) ([102, 111] : List Byte).length
        (fun _ => 126) = some enc ∧ HoldsCStr enc s ∧
      base32_decode s (fun _ => 126) 2 = some r ∧ r.code = BASE32_OK ∧
      ∀ (k : Nat) (hk : k < ([102, 111] : List Byte).length),
        r.out k = (([102, 111] : List Byte).get ⟨k, hk⟩).val :=
  ⟨by decide, base32_roundtrip [102, 111] (fun _ => 126) (fun _ => 126) 2 (by decide)⟩

theorem rfc4648_vectors :
    rfc4648_encode (bytesOf ("")) = charsOf ("") ∧
    rfc4648_encode (bytesOf ("f")) = charsOf ("MY======") ∧
    rfc4648_encode (bytesOf ("fo")) = charsOf ("MZXQ====") ∧
    rfc4648_encode (bytesOf ("foo")) = charsOf ("MZXW6===") ∧
    rfc4648_encode (bytesOf ("foob")) = charsOf ("MZXW6YQ=") ∧
    rfc4648_encode (bytesOf ("fooba")) = charsOf ("MZXW6YTB") ∧
    rfc4648_encode (bytesOf ("foobar")) = charsOf ("MZXW6YTBOI======") := by
  refine ⟨?_, ?_, ?_, ?_, ?_, ?_, ?_⟩ <;> decide

/-- C2. `base32_encode` equals the RFC 4648 reference definition: for every byte sequence
`B` the string it leaves in `out` is `rfc4648_encode B` (symbol `k`, for
`k < ceil(8 * len / 5)`, is the alphabet character of the bits `5k .. 5k+4` of `B` read
most-significant-first and zero-extended; every further position up to the next multiple
of 8 is `=`); in particular the seven RFC 4648 test vectors hold. -/
theorem base32_encode_rfc4648 :
    (∀ (B : List Byte) (out : Mem), ∃ enc, base32_encode B B.length out = some enc ∧
        HoldsCStr enc (rfc4648_encode B)) ∧
    (∀ out : Mem,
      (∃ enc, base32_encode (bytesOf ("")) 0 out = some enc ∧ HoldsCStr enc (charsOf (""))) ∧
      (∃ enc, base32_encode (bytesOf ("f")) 1 out = some enc ∧
        HoldsCStr enc (charsOf ("MY======"))) ∧
      (∃ enc, base32_encode (bytesOf ("fo")) 2 out = some enc ∧
        HoldsCStr enc (charsOf ("MZXQ===="))) ∧
      (∃ enc, base32_encode (bytesOf ("foo")) 3 out = some enc ∧
        HoldsCStr enc (charsOf ("MZXW6==="))) ∧
      (∃ enc, base32_encode (bytesOf ("foob")) 4 out = some enc ∧
        HoldsCStr enc (charsOf ("MZXW6YQ="))) ∧
      (∃ enc, base32_encode (bytesOf ("fooba")) 5 out = some enc ∧
        HoldsCStr enc (charsOf ("MZXW6YTB"))) ∧
      (∃ enc, base32_encode (bytesOf ("foobar")) 6 out = some enc ∧
        HoldsCStr enc (charsOf ("MZXW6YTBOI======")))) := by
  have gen : ∀ (B : List Byte) (out : Mem), ∃ enc, base32_encode B B.length out = some enc ∧
      HoldsCStr enc (rfc4648_encode B) := by
    intro B out
    obtain ⟨enc, h1, h2, _⟩ := base32_encode_holds B out
    exact ⟨enc, h1, h2⟩
  obtain ⟨v0, v1, v2, v3, v4, v5, v6⟩ := rfc4648_vectors
  refine ⟨gen, fun out => ⟨?_, ?_, ?_, ?_, ?_, ?_, ?_⟩⟩
  · rw [← v0]; exact gen _ out
  · rw [← v1]; exact gen _ out
  · rw [← v2]; exact gen _ out
  · rw [← v3]; exact gen _ out
  · rw [← v4]; exact gen _ out
  · rw [← v5]; exact gen _ out
  · rw [← v6]; exact gen _ out

theorem encoded_str_len_eq (n : Nat) (h : (n + 4) / 5 * 8 + 1 < SIZE_MODULUS) :
    base32_encoded_str_len n = (n + 4) / 5 * 8 + 1 := by
  unfold base32_encoded_str_len
  unfold SIZE_MODULUS at *
  rw [Nat.mod_eq_of_lt (show n + 4 < 2 ^ 64 by omega),
    Nat.mod_eq_of_lt (show (n + 4) / 5 * 8 < 2 ^ 64 by omega), Nat.mod_eq_of_lt h]

/-- C3. Length law: for every byte sequence `B`, the string written by `base32_encode` has
length `ceil(len(B) / 5) * 8`, a multiple of 8, and this is
`base32_encoded_str_len(len(B)) - 1` (the `size_t` arithmetic of the calculator does not
wrap as soon as the size of the required buffer is a `size_t`). -/
theorem base32_encode_length (B : List Byte) (out : Mem) :
    ∃ enc s, base32_encode B B.length out = some enc ∧ HoldsCStr enc s ∧
      s.length = (B.length + 4) / 5 * 8 ∧ s.length % 8 = 0 ∧
      ((B.length + 4) / 5 * 8 + 1 < SIZE_MODULUS →
        s.length = base32_encoded_str_len B.length - 1) := by
  obtain ⟨enc, h1, h2, _⟩ := base32_encode_holds B out
  refine ⟨enc, rfc4648_encode B, h1, h2, rfc4648_encode_length B, ?_, ?_⟩
  · rw [rfc4648_encode_length]; omega
  · intro hfit
    rw [encoded_str_len_eq _ hfit, rfc4648_encode_length]
    omega

/-- Witness of C3 on the single byte `f`: the buffer size 9 is a `size_t`, and the string
has the length `base32_encoded_str_len 1 - 1`. -/
theorem base32_encode_length_witness :
    (([102] : List Byte).length + 4) / 5 * 8 + 1 < SIZE_MODULUS ∧
    ∃ enc s, base32_encode ([102] : List Byte) ([102] : List Byte).length (fun _ => 126)
        = some enc ∧ HoldsCStr enc s ∧
      s.length = base32_encoded_str_len ([102] : List Byte).length - 1 := by
  refine ⟨by decide, ?_⟩
  obtain ⟨enc, s, h1, h2, _, _, h5⟩ := base32_encode_length [102] (fun _ => 126)
  exact ⟨enc, s, h1, h2, h5 (by decide)⟩

theorem rfc4648_symbol_eq_pad_iff (B : List Byte) (k : Nat) :
    rfc4648_symbol B k = 61 ↔ (8 * B.length + 4) / 5 ≤ k := by
  unfold rfc4648_symbol BASE32_PADDING_SYMBOL
  split_ifs with h
  · constructor
    · intro h'
      exact absurd h' (alphabetAt_ne_pad _ (quintetAt_lt B k))
    · intro h'
      omega
  · constructor
    · intro _
      omega
    · intro _
      rfl

theorem dataSymbolTable_eq (n : Nat) (h1 : 1 ≤ n) (h5 : n ≤ 5) :
    dataSymbolTable n = (8 * n + 4) / 5 := by
  have hcases : n = 1 ∨ n = 2 ∨ n = 3 ∨ n = 4 ∨ n = 5 := by omega
  rcases hcases with h | h | h | h | h <;> subst h <;> rfl

theorem count_pad_group (f : Nat → Nat) (d : Nat) (h : ∀ r < 8, (f r = 61 ↔ d ≤ r)) :
    ((List.range 8).map f).count 61 = 8 - d := by
  have e : List.range 8 = [0, 1, 2, 3, 4, 5, 6, 7] := by decide
  rw [e]
  have h0 := h 0 (by omega)
  have h1 := h 1 (by omega)
  have h2 := h 2 (by omega)
  have h3 := h 3 (by omega)
  have h4 := h 4 (by omega)
  have h5 := h 5 (by omega)
  have h6 := h 6 (by omega)
  have h7 := h 7 (by omega)
  simp only [List.map, List.count_cons, List.count_nil, beq_iff_eq, h0, h1, h2, h3, h4, h5,
    h6, h7]
  have hcases : d = 0 ∨ d = 1 ∨ d = 2 ∨ d = 3 ∨ d = 4 ∨ d = 5 ∨ d = 6 ∨ d = 7 ∨ 8 ≤ d := by
    omega
  rcases hcases with hd | hd | hd | hd | hd | hd | hd | hd | hd
  · subst hd; simp
  · subst hd; simp
  · subst hd; simp
  · subst hd; simp
  · subst hd; simp
  · subst hd; simp
  · subst hd; simp
  · subst hd; simp
  · have hz : ∀ r, r < 8 → (if d ≤ r then 1 else 0) = 0 := fun r hr => if_neg (by omega)
    rw [hz 0 (by omega), hz 1 (by omega), hz 2 (by omega), hz 3 (by omega), hz 4 (by omega),
      hz 5 (by omega), hz 6 (by omega), hz 7 (by omega)]
    omega

/-- C4. Padding law: for every non-empty byte sequence `B`, with `n` the byte count of the
final chunk (`len(B) mod 5`, 0 read as 5), the final 8-symbol group of the encoder output
holds `dataSymbolTable n` data symbols followed by `paddingTable n` characters `=`
(1→2/6, 2→4/4, 3→5/3, 4→7/1, 5→8/0), and no earlier group holds a `=`. -/
theorem base32_encode_padding (B : List Byte) (out : Mem) (hne : B ≠ []) :
    ∃ enc, base32_encode B B.length out = some enc ∧
      (∀ p, p < 8 * ((B.length + 4) / 5 - 1) → enc p ≠ 61) ∧
      (∀ r, r < 8 → (enc (8 * ((B.length + 4) / 5 - 1) + r) = 61 ↔
        dataSymbolTable (finalChunkSize B.length) ≤ r)) ∧
      ((List.range 8).map (fun r => enc (8 * ((B.length + 4) / 5 - 1) + r))).count 61
        = paddingTable (finalChunkSize B.length) ∧
      dataSymbolTable (finalChunkSize B.length) + paddingTable (finalChunkSize B.length)
        = 8 := by
  have hlen : 0 < B.length := List.length_pos.mpr hne
  obtain ⟨enc, h1, h2⟩ := base32_encode_spec B out
  have hn1 : 1 ≤ finalChunkSize B.length := by unfold finalChunkSize; split_ifs <;> omega
  have hn5 : finalChunkSize B.length ≤ 5 := by unfold finalChunkSize; split_ifs <;> omega
  have hsplit : B.length = 5 * ((B.length + 4) / 5 - 1) + finalChunkSize B.length := by
    unfold finalChunkSize; split_ifs <;> omega
  have hd := dataSymbolTable_eq _ hn1 hn5
  have hsum : dataSymbolTable (finalChunkSize B.length)
      + paddingTable (finalChunkSize B.length) = 8 := by
    have hcases : finalChunkSize B.length = 1 ∨ finalChunkSize B.length = 2 ∨
        finalChunkSize B.length = 3 ∨ finalChunkSize B.length = 4 ∨
        finalChunkSize B.length = 5 := by omega
    rcases hcases with h | h | h | h | h <;> rw [h] <;> rfl
  have hiff : ∀ r, r < 8 → (enc (8 * ((B.length + 4) / 5 - 1) + r) = 61 ↔
      dataSymbolTable (finalChunkSize B.length) ≤ r) := by
    intro r hr
    rw [h2, if_pos (by omega), rfc4648_symbol_eq_pad_iff, hd]
    generalize finalChunkSize B.length = n at *
    omega
  refine ⟨enc, h1, ?_, hiff, ?_, hsum⟩
  · intro p hp
    rw [h2, if_pos (by omega)]
    intro h
    rw [rfc4648_symbol_eq_pad_iff] at h
    generalize finalChunkSize B.length = n at *
    omega
  · rw [count_pad_group _ _ hiff]
    omega

/-- Witness of C4 on the two bytes of "fo": four data symbols, four `=`. -/
theorem base32_encode_padding_witness :
    ([102, 111] : List Byte) ≠ [] ∧
    ∃ enc, base32_encode ([102, 111] : List Byte) 2 (fun _ => 126) = some enc ∧
      ((List.range 8).map (fun r => enc (8 * ((2 + 4) / 5 - 1) + r))).count 61 = 4 := by
  refine ⟨by decide, ?_⟩
  obtain ⟨enc, h1, _, _, h4, _⟩ :=
    base32_encode_padding [102, 111] (fun _ => 126) (by decide)
  exact ⟨enc, h1, h4⟩

/-- C10. Encoder buffer bound: for every byte sequence `B` of length `n` and every prior
content of `out`, after `base32_encode` the terminator stands at offset
`ceil(n / 5) * 8`, every cell behind it has kept its content (so, the prior content being
arbitrary, no cell behind it is written), and, the buffer size being a `size_t`, that
offset is `base32_encoded_str_len(n) - 1`: every offset `≥ base32_encoded_str_len(n)`
is unchanged. -/
theorem base32_encode_frame (B : List Byte) (out : Mem) :
    ∃ enc, base32_encode B B.length out = some enc ∧
      enc ((B.length + 4) / 5 * 8) = 0 ∧
      (∀ p, (B.length + 4) / 5 * 8 < p → enc p = out p) ∧
      ((B.length + 4) / 5 * 8 + 1 < SIZE_MODULUS →
        enc (base32_encoded_str_len B.length - 1) = 0 ∧
        ∀ p, base32_encoded_str_len B.length ≤ p → enc p = out p) := by
  obtain ⟨enc, h1, h2⟩ := base32_encode_spec B out
  have hterm : enc ((B.length + 4) / 5 * 8) = 0 := by
    rw [h2, if_neg (by omega), if_pos rfl]
  have hframe : ∀ p, (B.length + 4) / 5 * 8 < p → enc p = out p := by
    intro p hp
    rw [h2 p, if_neg (by omega), if_neg (by omega)]
  refine ⟨enc, h1, hterm, hframe, ?_⟩
  intro hfit
  rw [encoded_str_len_eq _ hfit]
  refine ⟨?_, ?_⟩
  · rw [Nat.add_sub_cancel]; exact hterm
  · intro p hp
    exact hframe p (by omega)

/-- Witness of C10 on the six bytes of "foobar": `base32_encoded_str_len 6 = 17`. -/
theorem base32_encode_frame_witness :
    (([102, 111, 111, 98, 97, 114] : List Byte).length + 4) / 5 * 8 + 1 < SIZE_MODULUS ∧
    ∃ enc, base32_encode ([102, 111, 111, 98, 97, 114] : List Byte) 6 (fun _ => 126)
        = some enc ∧
      enc (base32_encoded_str_len 6 - 1) = 0 ∧
      ∀ p, base32_encoded_str_len 6 ≤ p → enc p = 126 := by
  refine ⟨by decide, ?_⟩
  obtain ⟨enc, h1, _, _, h4⟩ :=
    base32_encode_frame [102, 111, 111, 98, 97, 114] (fun _ => 126)
  exact ⟨enc, h1, h4 (by decide)⟩

/-- The decoder on a NUL-free string: it returns, with the error code exactly when an
offending position stands in the groups it scans. -/
theorem base32_decode_char (s : List Nat) (hs : ∀ c ∈ s, c ≠ 0) (dec : Mem) (lim : Nat) :
    ∃ r, base32_decode s dec lim = some r ∧
      ((r.code = BASE32_INCORRECT_SYMBOL_ENCOUNTED ∧
          ∃ p, p < 8 * ((lim + 4) / 5) ∧ Offending s p) ∨
        (r.code = BASE32_OK ∧ ¬ ∃ p, p < 8 * ((lim + 4) / 5) ∧ Offending s p)) := by
  obtain ⟨r, h1, h2⟩ := decodeLoop_char s hs lim lim 0 dec (by omega)
  refine ⟨r, by simpa [base32_decode] using h1, ?_⟩
  rcases h2 with ⟨hc, p, _, h3, h4⟩ | ⟨hc, hno⟩
  · exact Or.inl ⟨hc, p, h3, h4⟩
  · refine Or.inr ⟨hc, ?_⟩
    rintro ⟨p, h3, h4⟩
    exact hno ⟨p, by omega, h3, h4⟩

/-- C5. Decode failure characterisation: for every (NUL-free) string `s` and every
`out_limit`, `base32_decode` returns `BASE32_INCORRECT_SYMBOL_ENCOUNTED` if and only if,
among the first `ceil(out_limit / 5)` groups of 8 characters of `s`, some character
classifies as invalid or some value character stands after a `=` of its group; otherwise
it returns `BASE32_OK`. With `out_limit = 1`, "MY======" succeeds and yields the byte
0x66, and "M=Y=====" fails. -/
theorem base32_decode_failure_iff :
    (∀ (s : List Nat) (dec : Mem) (out_limit : Nat), (∀ c ∈ s, c ≠ 0) →
      ∃ r, base32_decode s dec out_limit = some r ∧
        (r.code = BASE32_INCORRECT_SYMBOL_ENCOUNTED ↔
          ∃ p, p < 8 * ((out_limit + 4) / 5) ∧ Offending s p) ∧
        ((¬ ∃ p, p < 8 * ((out_limit + 4) / 5) ∧ Offending s p) → r.code = BASE32_OK)) ∧
    (∀ dec : Mem, ∃ r, base32_decode (charsOf ("MY======")) dec 1 = some r ∧
      r.code = BASE32_OK ∧ r.out 0 = 0x66) ∧
    (∀ dec : Mem, ∃ r, base32_decode (charsOf ("M=Y=====")) dec 1 = some r ∧
      r.code = BASE32_INCORRECT_SYMBOL_ENCOUNTED) := by
  refine ⟨?_, ?_, ?_⟩
  · intro s dec out_limit hs
    obtain ⟨r, h1, h2⟩ := base32_decode_char s hs dec out_limit
    refine ⟨r, h1, ?_, ?_⟩
    · rcases h2 with ⟨hc, hp⟩ | ⟨hc, hno⟩
      · exact ⟨fun _ => hp, fun _ => hc⟩
      · constructor
        · intro h
          rw [hc] at h
          exact absurd h.symm incorrect_ne_ok
        · intro h
          exact absurd h hno
    · intro hno
      rcases h2 with ⟨_, hp⟩ | ⟨hc, _⟩
      · exact absurd hp hno
      · exact hc
  · intro dec
    exact ⟨_, rfl, rfl, rfl⟩
  · intro dec
    exact ⟨_, rfl, rfl⟩

/-- Witness of C5 on "M=Y=====" with `out_limit = 1`. -/
theorem base32_decode_failure_iff_witness :
    (∀ c ∈ charsOf ("M=Y====="), c ≠ 0) ∧
    ∃ r, base32_decode (charsOf ("M=Y=====")) (fun _ => 126) 1 = some r ∧
      (r.code = BASE32_INCORRECT_SYMBOL_ENCOUNTED ↔
        ∃ p, p < 8 * ((1 + 4) / 5) ∧ Offending (charsOf ("M=Y=====")) p) := by
  refine ⟨by decide, ?_⟩
  obtain ⟨r, h1, h2, _⟩ :=
    base32_decode_failure_iff.1 (charsOf ("M=Y=====")) (fun _ => 126) 1 (by decide)
  exact ⟨r, h1, h2⟩

/-- C6, as stated, fails: a string holding a lowercase letter decodes with `BASE32_OK`
when `out_limit = 0`, and when the letter stands behind the groups that `out_limit` makes
the decoder scan; and `=` is a punctuation character that the decoder accepts. -/
theorem base32_decode_invalid_not_rejected :
    (IsLowercase 97 ∧ 97 ∈ charsOf ("a") ∧
      (base32_decode (charsOf ("a")) (fun _ => 0) 0).map DecodeResult.code
        = some BASE32_OK) ∧
    (97 ∈ charsOf ("MZXW6YTBa") ∧
      (base32_decode (charsOf ("MZXW6YTBa")) (fun _ => 0) 5).map DecodeResult.code
        = some BASE32_OK) ∧
    (IsPunctuation 61 ∧ 61 ∈ charsOf ("MY======") ∧
      (base32_decode (charsOf ("MY======")) (fun _ => 0) 1).map DecodeResult.code
        = some BASE32_OK) := by
  refine ⟨⟨?_, by decide, by decide⟩, ⟨by decide, by decide⟩, ⟨?_, by decide, by decide⟩⟩
  · unfold IsLowercase; omega
  · unfold IsPunctuation; omega

/-- C6, amended. For every (NUL-free) string `s` and every `out_limit`: if a lowercase
letter, one of the digits 0, 1, 8, 9, or a punctuation character other than `=` stands
among the first `8 * ceil(out_limit / 5)` characters of `s`, then `base32_decode` fails
with `BASE32_INCORRECT_SYMBOL_ENCOUNTED`. -/
theorem base32_decode_rejects_scanned_invalid (s : List Nat) (dec : Mem)
    (out_limit p : Nat) (hs : ∀ c ∈ s, c ≠ 0) (hp : p < s.length)
    (hscan : p < 8 * ((out_limit + 4) / 5))
    (hc : IsLowercase (s.getD p 0) ∨ IsRejectedDigit (s.getD p 0) ∨
      (IsPunctuation (s.getD p 0) ∧ s.getD p 0 ≠ 61)) :
    ∃ r, base32_decode s dec out_limit = some r ∧
      r.code = BASE32_INCORRECT_SYMBOL_ENCOUNTED := by
  have hinv : IsInvalidChar (s.getD p 0) := by
    rw [isInvalidChar_iff]
    unfold IsValueChar
    unfold IsLowercase IsRejectedDigit IsPunctuation at hc
    omega
  obtain ⟨r, h1, h2⟩ := base32_decode_char s hs dec out_limit
  refine ⟨r, h1, ?_⟩
  rcases h2 with ⟨hcode, _⟩ | ⟨_, hno⟩
  · exact hcode
  · exact absurd ⟨p, hscan, hp, Or.inl hinv⟩ hno

/-- Witness of the amended C6: the lowercase `a` at offset 8 of "MZXW6YTBa" is scanned
when `out_limit = 6`. -/
theorem base32_decode_rejects_scanned_invalid_witness :
    ((∀ c ∈ charsOf ("MZXW6YTBa"), c ≠ 0) ∧ 8 < (charsOf ("MZXW6YTBa")).length ∧
      8 < 8 * ((6 + 4) / 5) ∧ IsLowercase ((charsOf ("MZXW6YTBa")).getD 8 0)) ∧
    ∃ r, base32_decode (charsOf ("MZXW6YTBa")) (fun _ => 0) 6 = some r ∧
      r.code = BASE32_INCORRECT_SYMBOL_ENCOUNTED :=
  ⟨⟨by decide, by decide, by decide, by unfold IsLowercase; decide⟩,
    base32_decode_rejects_scanned_invalid (charsOf ("MZXW6YTBa")) (fun _ => 0) 6 8
      (by decide) (by decide) (by decide) (Or.inl (by unfold IsLowercase; decide))⟩

/-- C7. For every string `s` and every `out_limit`, `base32_decode` returns, and the value
it returns is `BASE32_OK` (0) or `BASE32_INCORRECT_SYMBOL_ENCOUNTED` (-2), never
`BASE32_PADDING_ENCOUNTED` (-1) nor `BASE32_OUTPUT_LIMIT_REACHED` (-3). -/
theorem base32_decode_codes (s : List Nat) (dec : Mem) (out_limit : Nat) :
    ∃ r, base32_decode s dec out_limit = some r ∧
      (r.code = BASE32_OK ∨ r.code = BASE32_INCORRECT_SYMBOL_ENCOUNTED) ∧
      (r.code = 0 ∨ r.code = -2) ∧
      r.code ≠ BASE32_PADDING_ENCOUNTED ∧ r.code ≠ BASE32_OUTPUT_LIMIT_REACHED := by
  obtain ⟨r, h1, h2⟩ := decodeLoop_total s out_limit out_limit 0 0 dec (by omega) (by omega)
  refine ⟨r, h1, h2, ?_, ?_, ?_⟩
  · rcases h2 with h | h <;> rw [h]
    · exact Or.inl rfl
    · exact Or.inr rfl
  · rcases h2 with h | h <;> rw [h] <;> decide
  · rcases h2 with h | h <;> rw [h] <;> decide

/-- C8. `base32_char_to_value` is total and matches the classification table: for every
character value `c` it returns `c - 'A'` (0..25) on `A`..`Z`, `26 + (c - '2')` (26..31)
on `2`..`7`, `BASE32_PADDING_ENCOUNTED` on `=`, and
`BASE32_INCORRECT_SYMBOL_ENCOUNTED` on every other character, lowercase letters, the
digits 0, 1, 8, 9 and the other punctuation included. -/
theorem base32_char_to_value_table (c : Nat) :
    (65 ≤ c ∧ c ≤ 90 →
      base32_char_to_value c = (c : Int) - 65 ∧
        0 ≤ base32_char_to_value c ∧ base32_char_to_value c ≤ 25) ∧
    (50 ≤ c ∧ c ≤ 55 →
      base32_char_to_value c = 26 + ((c : Int) - 50) ∧
        26 ≤ base32_char_to_value c ∧ base32_char_to_value c ≤ 31) ∧
    (c = 61 → base32_char_to_value c = BASE32_PADDING_ENCOUNTED) ∧
    (¬ (65 ≤ c ∧ c ≤ 90) → ¬ (50 ≤ c ∧ c ≤ 55) → c ≠ 61 →
      base32_char_to_value c = BASE32_INCORRECT_SYMBOL_ENCOUNTED) ∧
    (IsLowercase c ∨ IsRejectedDigit c ∨ (IsPunctuation c ∧ c ≠ 61) →
      base32_char_to_value c = BASE32_INCORRECT_SYMBOL_ENCOUNTED) := by
  unfold base32_char_to_value BASE32_PADDING_SYMBOL BASE32_PADDING_ENCOUNTED
    BASE32_INCORRECT_SYMBOL_ENCOUNTED IsLowercase IsRejectedDigit IsPunctuation
  refine ⟨?_, ?_, ?_, ?_, ?_⟩
  · intro h
    rw [if_pos h]
    omega
  · intro h
    rw [if_neg (by omega), if_pos h]
    omega
  · intro h
    rw [if_neg (by omega), if_neg (by omega), if_pos h]
  · intro h1 h2 h3
    rw [if_neg h1, if_neg h2, if_neg h3]
  · intro h
    rw [if_neg (by omega), if_neg (by omega), if_neg (by omega)]

/-- Witness of C8: `M` (77) has the value 12, `a` (97) is invalid. -/
theorem base32_char_to_value_table_witness :
    ((65 ≤ 77 ∧ 77 ≤ 90) ∧ base32_char_to_value 77 = 12) ∧
    (IsLowercase 97 ∧ base32_char_to_value 97 = BASE32_INCORRECT_SYMBOL_ENCOUNTED) :=
  ⟨⟨by decide, ((base32_char_to_value_table 77).1 (by decide)).1⟩,
    ⟨by unfold IsLowercase; decide,
      (base32_char_to_value_table 97).2.2.2.2 (Or.inl (by unfold IsLowercase; decide))⟩⟩

/-- C9. The alphabet and the classifier are mutually inverse: for every `v` in 0..31,
`base32_char_to_value(BASE32_ALPHABET[v]) = v`; for every character `c` classified as a
value, `BASE32_ALPHABET[base32_char_to_value(c)] = c`; the alphabet has 32 distinct
characters, and the padding symbol `=` is not one of them. -/
theorem base32_alphabet_bijection :
    (∀ v, v < 32 → base32_char_to_value (alphabetAt v) = (v : Int)) ∧
    (∀ c, 0 ≤ base32_char_to_value c →
      (base32_char_to_value c).toNat < 32 ∧
        alphabetAt (base32_char_to_value c).toNat = c) ∧
    BASE32_ALPHABET.length = 32 ∧ BASE32_ALPHABET.Nodup ∧
    BASE32_PADDING_SYMBOL ∉ BASE32_ALPHABET := by
  refine ⟨char_to_value_alphabet, ?_, by decide, by decide, by decide⟩
  intro c hc
  rcases char_class c with ⟨hv, v, hv32, hval⟩ | ⟨_, hval⟩ | ⟨_, _, hval⟩
  · rw [hval, Int.toNat_ofNat]
    refine ⟨hv32, ?_⟩
    rw [alphabetAt_eq v hv32]
    unfold base32_char_to_value at hval
    unfold IsValueChar at hv
    split_ifs at hval with h1 h2 <;> split_ifs <;> omega
  · rw [hval] at hc
    omega
  · rw [hval] at hc
    omega

/-- Witness of C9: value 12 is `M` (77) and back. -/
theorem base32_alphabet_bijection_witness :
    ((12 : Nat) < 32 ∧ base32_char_to_value (alphabetAt 12) = 12) ∧
    ((0 : Int) ≤ base32_char_to_value 77 ∧
      alphabetAt (base32_char_to_value 77).toNat = 77) :=
  ⟨⟨by decide, base32_alphabet_bijection.1 12 (by decide)⟩,
    ⟨by decide, (base32_alphabet_bijection.2.1 77 (by decide)).2⟩⟩

/-! ## Frame of the decoder, size calculators, shape of the encoder output -/

theorem decodeBytes_frame (b : Nat → Nat) (n j : Nat) (m : Mem) (p : Nat) (hn : n ≤ 5)
    (hp : p < j ∨ j + n ≤ p) : decodeBytes b n j m p = m p := by
  have hcases : n = 0 ∨ n = 1 ∨ n = 2 ∨ n = 3 ∨ n = 4 ∨ n = 5 := by omega
  rcases hcases with h | h | h | h | h | h <;> subst h <;>
    simp only [decodeBytes_5, decodeBytes_4, decodeBytes_3, decodeBytes_2, decodeBytes_1,
      decodeBytes_0, store] <;>
    split_ifs <;>
    first
    | rfl
    | (exfalso; omega)

/-- The decoder loop on any string returns and leaves every cell from `out_limit` on as it
found it. -/
theorem decodeLoop_frame (s : List Nat) (lim : Nat) :
    ∀ (fuel i j : Nat) (m : Mem), lim ≤ j + 5 * fuel → i ≤ s.length →
      ∃ r, decodeLoop s lim fuel i j m = some r ∧ ∀ p, lim ≤ p → r.out p = m p := by
  intro fuel
  induction fuel with
  | zero =>
    intro i j m hf _
    refine ⟨⟨BASE32_OK, m⟩, ?_, fun _ _ => rfl⟩
    simp only [decodeLoop]
    rw [if_neg (by omega)]
  | succ fuel ih =>
    intro i j m hf hi
    by_cases hlt : j < lim
    · simp only [decodeLoop]
      rw [if_pos hlt]
      rcases decodeGroup_total s 8 0 i (fun _ => 0) false hi with hres | ⟨i', buf, hres, hi'⟩
      · rw [hres]
        exact ⟨⟨BASE32_INCORRECT_SYMBOL_ENCOUNTED, m⟩, rfl, fun _ _ => rfl⟩
      · rw [hres]
        obtain ⟨r, h1, h2⟩ := ih i' (j + 5)
          (decodeBytes buf (if lim - j < 5 then lim - j else 5) j m) (by omega) hi'
        refine ⟨r, h1, ?_⟩
        intro p hp
        rw [h2 p hp, decodeBytes_frame _ _ _ _ _ (by split_ifs <;> omega)
          (by split_ifs <;> omega)]
    · refine ⟨⟨BASE32_OK, m⟩, ?_, fun _ _ => rfl⟩
      simp only [decodeLoop]
      rw [if_neg hlt]

/-- C11. Decoder output limit: for every string `s`, every prior content of the output
buffer and every `out_limit`, `base32_decode` returns (with either code) and every output
cell at an index `≥ out_limit` holds what it held before the call; the prior content being
arbitrary, no such cell is written. -/
theorem base32_decode_frame (s : List Nat) (dec : Mem) (out_limit : Nat) :
    ∃ r, base32_decode s dec out_limit = some r ∧
      (r.code = BASE32_OK ∨ r.code = BASE32_INCORRECT_SYMBOL_ENCOUNTED) ∧
      ∀ p, out_limit ≤ p → r.out p = dec p := by
  obtain ⟨r, h1, h2⟩ := decodeLoop_frame s out_limit out_limit 0 0 dec (by omega) (by omega)
  obtain ⟨r', h1', h3⟩ :=
    decodeLoop_total s out_limit out_limit 0 0 dec (by omega) (by omega)
  have e : r' = r := by
    rw [h1] at h1'
    exact (Option.some.inj h1').symm
  subst e
  exact ⟨r', h1, h3, h2⟩

theorem decoded_data_size_eq (L : Nat) (h : L < SIZE_MODULUS) :
    base32_decoded_data_size L = L / 8 * 5 := by
  unfold base32_decoded_data_size
  unfold SIZE_MODULUS at *
  exact Nat.mod_eq_of_lt (by omega)

/-- C12. `base32_decoded_data_size(L) = floor(L / 8) * 5` for every `size_t` value `L`,
and it bounds the decoded byte count from above: for every byte sequence `B`, with `s` the
string written by `base32_encode` (its length a `size_t`),
`len(B) ≤ base32_decoded_data_size(strlen(s)) < len(B) + 5`. -/
theorem base32_decoded_data_size_bound :
    (∀ L, L < SIZE_MODULUS → base32_decoded_data_size L = L / 8 * 5) ∧
    (∀ (B : List Byte) (out : Mem), ∃ enc s, base32_encode B B.length out = some enc ∧
      HoldsCStr enc s ∧ s.length = (B.length + 4) / 5 * 8 ∧
      (s.length < SIZE_MODULUS →
        B.length ≤ base32_decoded_data_size s.length ∧
        base32_decoded_data_size s.length < B.length + 5)) := by
  refine ⟨decoded_data_size_eq, ?_⟩
  intro B out
  obtain ⟨enc, h1, h2, _⟩ := base32_encode_holds B out
  refine ⟨enc, rfc4648_encode B, h1, h2, rfc4648_encode_length B, ?_⟩
  intro hfit
  rw [decoded_data_size_eq _ hfit, rfc4648_encode_length]
  omega

/-- Witness of C12: a 16-character string bounds 10 bytes, and the six bytes of "foobar"
lie within 5 of the bound of their encoding. -/
theorem base32_decoded_data_size_bound_witness :
    ((16 : Nat) < SIZE_MODULUS ∧ base32_decoded_data_size 16 = 16 / 8 * 5) ∧
    ∃ enc s, base32_encode ([102, 111, 111, 98, 97, 114] : List Byte) 6 (fun _ => 126)
        = some enc ∧ HoldsCStr enc s ∧ s.length < SIZE_MODULUS ∧
      6 ≤ base32_decoded_data_size s.length ∧ base32_decoded_data_size s.length < 6 + 5 := by
  refine ⟨⟨by decide, base32_decoded_data_size_bound.1 16 (by decide)⟩, ?_⟩
  obtain ⟨enc, s, h1, h2, h3, h4⟩ :=
    base32_decoded_data_size_bound.2 [102, 111, 111, 98, 97, 114] (fun _ => 126)
  have hlt : s.length < SIZE_MODULUS := by rw [h3]; decide
  exact ⟨enc, s, h1, h2, hlt, h4 hlt⟩

/-- C13, as stated, fails at the largest `size_t`: `data_size + 4` wraps around and the
calculator returns 1, not `ceil(data_size / 5) * 8 + 1`. -/
theorem base32_encoded_str_len_wraps :
    2 ^ 64 - 1 < SIZE_MODULUS ∧ base32_encoded_str_len (2 ^ 64 - 1) = 1 ∧
    base32_encoded_str_len (2 ^ 64 - 1) ≠ (2 ^ 64 - 1 + 4) / 5 * 8 + 1 := by
  decide

/-- C13, amended. For every `data_size` such that `ceil(data_size / 5) * 8 + 1` is a
`size_t` (below `2 ^ 64`), `base32_encoded_str_len(data_size)` returns exactly
`ceil(data_size / 5) * 8 + 1`. -/
theorem base32_encoded_str_len_exact (data_size : Nat)
    (hfit : (data_size + 4) / 5 * 8 + 1 < SIZE_MODULUS) :
    base32_encoded_str_len data_size = (data_size + 4) / 5 * 8 + 1 ∧
    5 * ((data_size + 4) / 5) < data_size + 5 ∧ data_size ≤ 5 * ((data_size + 4) / 5) := by
  refine ⟨encoded_str_len_eq data_size hfit, ?_, ?_⟩ <;> omega

/-- Witness of the amended C13: six bytes need 17 characters. -/
theorem base32_encoded_str_len_exact_witness :
    (6 + 4) / 5 * 8 + 1 < SIZE_MODULUS ∧ base32_encoded_str_len 6 = 17 :=
  ⟨by decide, (base32_encoded_str_len_exact 6 (by decide)).1⟩

/-- C18. Truncated decode yields a prefix: for every byte sequence `B` and every
`out_limit ≤ len(B)`, decoding the string written by `base32_encode` returns `BASE32_OK`,
the output bytes `0 .. out_limit - 1` are the first `out_limit` bytes of `B` (also when
`out_limit` is not a multiple of 5), and every other cell keeps its content. -/
theorem base32_decode_truncated (B : List Byte) (out dec : Mem) (out_limit : Nat)
    (h : out_limit ≤ B.length) :
    ∃ enc s r, base32_encode B B.length out = some enc ∧ HoldsCStr enc s ∧
      base32_decode s dec out_limit = some r ∧ r.code = BASE32_OK ∧
      (∀ (k : Nat) (hk : k < out_limit),
        r.out k = (B.get ⟨k, Nat.lt_of_lt_of_le hk h⟩).val) ∧
      ∀ k, out_limit ≤ k → r.out k = dec k := by
  obtain ⟨enc, h1, h2, _⟩ := base32_encode_holds B out
  obtain ⟨r, h3, h4, h5⟩ := base32_decode_of_encode B dec out_limit
  refine ⟨enc, rfc4648_encode B, r, h1, h2, h3, h4, ?_, ?_⟩
  · intro k hk
    rw [h5 k, if_pos hk, byteAt_eq_get B k (Nat.lt_of_lt_of_le hk h)]
  · intro k hk
    rw [h5 k, if_neg (by omega)]

/-- Witness of C18: the six bytes of "foobar" decoded with `out_limit = 3`. -/
theorem base32_decode_truncated_witness :
    3 ≤ ([102, 111, 111, 98, 97, 114] : List Byte).length ∧
    ∃ enc s r, base32_encode ([102, 111, 111, 98, 97, 114] : List Byte) 6 (fun _ => 126)
        = some enc ∧ HoldsCStr enc s ∧
      base32_decode s (fun _ => 126) 3 = some r ∧ r.code = BASE32_OK ∧
      r.out 0 = 102 ∧ r.out 1 = 111 ∧ r.out 2 = 111 ∧ r.out 3 = 126 := by
  refine ⟨by decide, ?_⟩
  obtain ⟨enc, s, r, h1, h2, h3, h4, h5, h6⟩ :=
    base32_decode_truncated [102, 111, 111, 98, 97, 114] (fun _ => 126) (fun _ => 126) 3
      (by decide)
  exact ⟨enc, s, r, h1, h2, h3, h4, h5 0 (by decide), h5 1 (by decide), h5 2 (by decide),
    h6 3 (by decide)⟩

theorem strRead_none_iff (s : List Nat) (i : Nat) : strRead s i = none ↔ s.length < i := by
  unfold strRead
  split_ifs with h1 h2
  · simp; omega
  · simp; omega
  · simp; omega

/-- C20. The decoder never reads past the terminator: the character lookup `strRead`
answers `none` exactly at the offsets `i > strlen(s)`, a `none` makes the loops end
without a result, and for every string `s`, every prior buffer content and every
`out_limit` (however large) `base32_decode` returns a result; the inner loop started
inside the string ends inside the string. -/
theorem base32_decode_reads_in_bounds (s : List Nat) (dec : Mem) (out_limit : Nat) :
    (∀ i, strRead s i = none ↔ s.length < i) ∧
    (∀ (rem k i : Nat) (buffer : Nat → Nat) (pad : Bool), s.length < i →
      decodeGroup s (rem + 1) k i buffer pad = GroupResult.fault) ∧
    (∀ (k i : Nat) (buffer : Nat → Nat) (pad : Bool), i ≤ s.length →
      decodeGroup s 8 k i buffer pad ≠ GroupResult.fault) ∧
    ∃ r, base32_decode s dec out_limit = some r := by
  refine ⟨strRead_none_iff s, ?_, ?_, ?_⟩
  · intro rem k i buffer pad hi
    simp only [decodeGroup, (strRead_none_iff s i).mpr hi]
  · intro k i buffer pad hi
    rcases decodeGroup_total s 8 k i buffer pad hi with h | ⟨i', buf, h, _⟩
    · rw [h]; intro h'; cases h'
    · rw [h]; intro h'; cases h'
  · obtain ⟨r, h1, _⟩ :=
      decodeLoop_total s out_limit out_limit 0 0 dec (by omega) (by omega)
    exact ⟨r, h1⟩

/-- Witness of C20: an 8-character string decoded into 1000 bytes. -/
theorem base32_decode_reads_in_bounds_witness :
    (8 : Nat) ≤ (charsOf ("MY======")).length ∧
    decodeGroup (charsOf ("MY======")) 8 0 8 (fun _ => 0) false ≠ GroupResult.fault ∧
    ∃ r, base32_decode (charsOf ("MY======")) (fun _ => 126) 1000 = some r :=
  ⟨by decide,
    (base32_decode_reads_in_bounds (charsOf ("MY======")) (fun _ => 126) 1000).2.2.1
      0 8 (fun _ => 0) false (by decide),
    (base32_decode_reads_in_bounds (charsOf ("MY======")) (fun _ => 126) 1000).2.2.2⟩

theorem alphabetAt_mem (v : Nat) (h : v < 32) : alphabetAt v ∈ BASE32_ALPHABET := by
  have hl : v < BASE32_ALPHABET.length := by
    have : BASE32_ALPHABET.length = 32 := by decide
    omega
  unfold alphabetAt
  rw [List.getD_eq_getElem _ _ hl]
  exact List.getElem_mem hl

theorem pad_not_mem_alphabet : (61 : Nat) ∉ BASE32_ALPHABET := by decide

/-- The reference encoding is its data symbols followed by its padding. -/
theorem rfc4648_encode_split (B : List Byte) :
    rfc4648_encode B =
      (List.range ((8 * B.length + 4) / 5)).map (fun k => alphabetAt (quintetAt B k))
        ++ List.replicate ((B.length + 4) / 5 * 8 - (8 * B.length + 4) / 5) 61 := by
  have hL : (B.length + 4) / 5 * 8 =
      (8 * B.length + 4) / 5 + ((B.length + 4) / 5 * 8 - (8 * B.length + 4) / 5) := by
    omega
  unfold rfc4648_encode
  rw [hL, List.range_add, List.map_append, List.map_map, ← hL]
  congr 1
  · apply List.map_congr_left
    intro k hk
    rw [List.mem_range] at hk
    exact rfc4648_symbol_data B k hk
  · rw [List.eq_replicate_iff]
    refine ⟨by simp, ?_⟩
    intro c hc
    simp only [List.mem_map, List.mem_range, Function.comp] at hc
    obtain ⟨k, _, rfl⟩ := hc
    exact rfc4648_symbol_pad B _ (by omega)

/-- C14. Encoder output shape: for every byte sequence `B`, the string written by
`base32_encode` is a run of alphabet characters followed by `k ≤ 6` characters `=`; so
every character is an alphabet character or `=`, and behind a `=` only `=` follows. -/
theorem base32_encode_shape (B : List Byte) (out : Mem) :
    ∃ enc s, base32_encode B B.length out = some enc ∧ HoldsCStr enc s ∧
      (∀ c ∈ s, c ∈ BASE32_ALPHABET ∨ c = BASE32_PADDING_SYMBOL) ∧
      (∃ t k, s = t ++ List.replicate k BASE32_PADDING_SYMBOL ∧ k ≤ 6 ∧
        (∀ c ∈ t, c ∈ BASE32_ALPHABET) ∧ BASE32_PADDING_SYMBOL ∉ t) ∧
      ∀ i j, i < j → j < s.length → s.getD i 0 = BASE32_PADDING_SYMBOL →
        s.getD j 0 = BASE32_PADDING_SYMBOL := by
  obtain ⟨enc, h1, h2, _⟩ := base32_encode_holds B out
  have hmem : ∀ c ∈ (List.range ((8 * B.length + 4) / 5)).map
      (fun k => alphabetAt (quintetAt B k)), c ∈ BASE32_ALPHABET := by
    intro c hc
    simp only [List.mem_map] at hc
    obtain ⟨k, _, rfl⟩ := hc
    exact alphabetAt_mem _ (quintetAt_lt B k)
  refine ⟨enc, rfc4648_encode B, h1, h2, ?_, ?_, ?_⟩
  · intro c hc
    rw [rfc4648_encode_split, List.mem_append] at hc
    rcases hc with hc | hc
    · exact Or.inl (hmem c hc)
    · exact Or.inr (List.eq_of_mem_replicate hc)
  · refine ⟨_, _, rfc4648_encode_split B, by omega, hmem, ?_⟩
    intro hc
    exact pad_not_mem_alphabet (hmem _ hc)
  · intro i j hij hj hi
    rw [rfc4648_encode_length] at hj
    unfold BASE32_PADDING_SYMBOL at *
    rw [rfc4648_encode_getD B i (by omega), rfc4648_symbol_eq_pad_iff] at hi
    rw [rfc4648_encode_getD B j hj]
    exact (rfc4648_symbol_eq_pad_iff B j).mpr (by omega)

theorem byteAt_append_left (A B : List Byte) (q : Nat) (h : q < A.length) :
    byteAt (A ++ B) q = byteAt A q := by
  unfold byteAt
  rw [List.getD_append _ _ _ _ h]

theorem byteAt_append_right (A B : List Byte) (q : Nat) :
    byteAt (A ++ B) (A.length + q) = byteAt B q := by
  unfold byteAt
  rw [List.getD_append_right _ _ _ _ (by omega), Nat.add_sub_cancel_left]

theorem quintetAt_append_left (A B : List Byte) (a k : Nat) (ha : A.length = 5 * a)
    (hk : k < 8 * a) : quintetAt (A ++ B) k = quintetAt A k := by
  unfold quintetAt bitAt
  rw [byteAt_append_left A B _ (by omega), byteAt_append_left A B _ (by omega),
    byteAt_append_left A B _ (by omega), byteAt_append_left A B _ (by omega),
    byteAt_append_left A B _ (by omega)]

theorem bitAt_append_right (A B : List Byte) (a p : Nat) (ha : A.length = 5 * a) :
    bitAt (A ++ B) (40 * a + p) = bitAt B p := by
  unfold bitAt
  have e1 : (40 * a + p) / 8 = A.length + p / 8 := by omega
  have e2 : (40 * a + p) % 8 = p % 8 := by omega
  rw [e1, e2, byteAt_append_right]

theorem quintetAt_append_right (A B : List Byte) (a k : Nat) (ha : A.length = 5 * a) :
    quintetAt (A ++ B) (8 * a + k) = quintetAt B k := by
  unfold quintetAt
  have e0 : 5 * (8 * a + k) = 40 * a + 5 * k := by ring
  have e1 : 5 * (8 * a + k) + 1 = 40 * a + (5 * k + 1) := by ring
  have e2 : 5 * (8 * a + k) + 2 = 40 * a + (5 * k + 2) := by ring
  have e3 : 5 * (8 * a + k) + 3 = 40 * a + (5 * k + 3) := by ring
  have e4 : 5 * (8 * a + k) + 4 = 40 * a + (5 * k + 4) := by ring
  rw [e1, e2, e3, e4, e0, bitAt_append_right A B a _ ha, bitAt_append_right A B a _ ha,
    bitAt_append_right A B a _ ha, bitAt_append_right A B a _ ha,
    bitAt_append_right A B a _ ha]

/-- The reference encoding splits at a chunk boundary. -/
theorem rfc4648_encode_append (A B : List Byte) (h : A.length % 5 = 0) :
    rfc4648_encode (A ++ B) = rfc4648_encode A ++ rfc4648_encode B := by
  obtain ⟨a, ha⟩ : ∃ a, A.length = 5 * a := ⟨A.length / 5, by omega⟩
  unfold rfc4648_encode
  have hL : ((A ++ B).length + 4) / 5 * 8 = (A.length + 4) / 5 * 8 + (B.length + 4) / 5 * 8 := by
    rw [List.length_append]
    omega
  have hA : (A.length + 4) / 5 * 8 = 8 * a := by omega
  rw [hL, List.range_add, List.map_append, List.map_map]
  congr 1
  · apply List.map_congr_left
    intro k hk
    rw [List.mem_range] at hk
    unfold rfc4648_symbol
    rw [List.length_append, quintetAt_append_left A B a k ha (by omega)]
    rw [if_pos (by omega), if_pos (by omega)]
  · apply List.map_congr_left
    intro k hk
    simp only [Function.comp]
    rw [hA]
    unfold rfc4648_symbol
    rw [List.length_append, quintetAt_append_right A B a k ha]
    by_cases hc : k < (8 * B.length + 4) / 5
    · rw [if_pos hc, if_pos (by omega)]
    · rw [if_neg hc, if_neg (by omega)]

/-- C19. Chunk independence of the encoder: for all byte sequences `A` and `B` with
`len(A)` a multiple of 5, the string written by `base32_encode` for `A ++ B` is the string
written for `A` followed by the string written for `B`. -/
theorem base32_encode_append (A B : List Byte) (out outA outB : Mem)
    (h : A.length % 5 = 0) :
    ∃ encAB encA encB sAB sA sB,
      base32_encode (A ++ B) (A ++ B).length out = some encAB ∧ HoldsCStr encAB sAB ∧
      base32_encode A A.length outA = some encA ∧ HoldsCStr encA sA ∧
      base32_encode B B.length outB = some encB ∧ HoldsCStr encB sB ∧
      sAB = sA ++ sB := by
  obtain ⟨encAB, h1, h2, _⟩ := base32_encode_holds (A ++ B) out
  obtain ⟨encA, h3, h4, _⟩ := base32_encode_holds A outA
  obtain ⟨encB, h5, h6, _⟩ := base32_encode_holds B outB
  exact ⟨encAB, encA, encB, _, _, _, h1, h2, h3, h4, h5, h6, rfc4648_encode_append A B h⟩

/-- Witness of C19: "fooba" followed by "r". -/
theorem base32_encode_append_witness :
    ([102, 111, 111, 98, 97] : List Byte).length % 5 = 0 ∧
    ∃ encAB encA encB sAB sA sB,
      base32_encode ([102, 111, 111, 98, 97] ++ [114] : List Byte) 6 (fun _ => 126)
        = some encAB ∧ HoldsCStr encAB sAB ∧
      base32_encode ([102, 111, 111, 98, 97] : List Byte) 5 (fun _ => 126) = some encA ∧
      HoldsCStr encA sA ∧
      base32_encode ([114] : List Byte) 1 (fun _ => 126) = some encB ∧ HoldsCStr encB sB ∧
      sAB = sA ++ sB :=
  ⟨by decide, base32_encode_append [102, 111, 111, 98, 97] [114] (fun _ => 126)
    (fun _ => 126) (fun _ => 126) (by decide)⟩

/-! ## The decoder as a function of its input: zero fill, missing padding, partial output -/

theorem groupByte_0 (b : Nat → Nat) :
    groupByte b 0 = ((b 0 <<< 3) ||| (b 1 >>> 2)) % 256 := rfl

theorem groupByte_1 (b : Nat → Nat) :
    groupByte b 1 = ((b 1 <<< 6) ||| (b 2 <<< 1) ||| (b 3 >>> 4)) % 256 := rfl

theorem groupByte_2 (b : Nat → Nat) :
    groupByte b 2 = ((b 3 <<< 4) ||| (b 4 >>> 1)) % 256 := rfl

theorem groupByte_3 (b : Nat → Nat) :
    groupByte b 3 = ((b 4 <<< 7) ||| (b 5 <<< 2) ||| (b 6 >>> 3)) % 256 := rfl

theorem groupByte_4 (b : Nat → Nat) :
    groupByte b 4 = ((b 6 <<< 5) ||| b 7) % 256 := rfl

theorem decodeBytes_at (buf : Nat → Nat) (n j : Nat) (m : Mem) (p : Nat) (hn : n ≤ 5) :
    decodeBytes buf n j m p = if j ≤ p ∧ p < j + n then groupByte buf (p - j) else m p := by
  by_cases hin : j ≤ p ∧ p < j + n
  swap
  · rw [if_neg hin, decodeBytes_frame _ _ _ _ _ hn (by omega)]
  rw [if_pos hin]
  obtain ⟨t, rfl⟩ : ∃ t, p = j + t := ⟨p - j, by omega⟩
  rw [Nat.add_sub_cancel_left]
  have ht : t < n := by omega
  clear hin
  have hcases : n = 1 ∨ n = 2 ∨ n = 3 ∨ n = 4 ∨ n = 5 := by omega
  have htc : t = 0 ∨ t = 1 ∨ t = 2 ∨ t = 3 ∨ t = 4 := by omega
  rcases hcases with h | h | h | h | h <;> subst h <;>
    rcases htc with h | h | h | h | h <;> subst h <;>
    first
    | (exfalso; omega)
    | simp [decodeBytes_5, decodeBytes_4, decodeBytes_3, decodeBytes_2, decodeBytes_1,
        store, groupByte_0, groupByte_1, groupByte_2, groupByte_3, groupByte_4]

theorem groupByte_congr (b b' : Nat → Nat) (t : Nat) (h : ∀ r, b r = b' r) :
    groupByte b t = groupByte b' t := by
  unfold groupByte
  simp only [h]

theorem strRead_some (s : List Nat) (i ch : Nat) (h : strRead s i = some ch) (hne : ch ≠ 0) :
    i < s.length ∧ ch = s.getD i 0 := by
  unfold strRead at h
  split_ifs at h with h1 h2
  · exact ⟨h1, (Option.some.inj h).symm⟩
  · exact absurd (Option.some.inj h).symm hne

/-- The scratch buffer after the inner loop: the entries of the characters it consumed hold
their values, the others are untouched. -/
theorem decodeGroup_buf (s : List Nat) :
    ∀ (rem k i : Nat) (buffer : Nat → Nat) (pad : Bool) (i1 : Nat) (buf : Nat → Nat),
      decodeGroup s rem k i buffer pad = GroupResult.done i1 buf →
      i ≤ i1 ∧ ∀ r, buf r =
        if k ≤ r ∧ i + (r - k) < i1 then charValue (s.getD (i + (r - k)) 0) else buffer r := by
  intro rem
  induction rem with
  | zero =>
    intro k i buffer pad i1 buf h
    simp only [decodeGroup] at h
    injection h with h1 h2
    subst h1 h2
    refine ⟨le_refl _, fun r => ?_⟩
    rw [if_neg (by omega)]
  | succ rem ih =>
    intro k i buffer pad i1 buf h
    simp only [decodeGroup] at h
    cases hr : strRead s i with
    | none =>
      rw [hr] at h
      cases h
    | some ch =>
      rw [hr] at h
      simp only at h
      by_cases hz : ch = 0
      · rw [if_pos hz] at h
        injection h with h1 h2
        subst h1 h2
        refine ⟨le_refl _, fun r => ?_⟩
        rw [if_neg (by omega)]
      · rw [if_neg hz] at h
        obtain ⟨hlt, hch⟩ := strRead_some s i ch hr hz
        have hfix : ∀ (b : Nat → Nat) (i1 : Nat) (buf : Nat → Nat),
            i + 1 ≤ i1 → b k = charValue ch → (∀ r, r ≠ k → b r = buffer r) →
            (∀ r, buf r = if k + 1 ≤ r ∧ i + 1 + (r - (k + 1)) < i1
              then charValue (s.getD (i + 1 + (r - (k + 1))) 0) else b r) →
            ∀ r, buf r = if k ≤ r ∧ i + (r - k) < i1
              then charValue (s.getD (i + (r - k)) 0) else buffer r := by
          intro b i1 buf hi1 hbk hbr hbuf r
          rw [hbuf r]
          by_cases hrk : r = k
          · subst hrk
            rw [if_neg (by omega), if_pos (by omega), Nat.sub_self, Nat.add_zero, ← hch, hbk]
          · by_cases hgt : k + 1 ≤ r
            · have e : i + 1 + (r - (k + 1)) = i + (r - k) := by omega
              rw [e]
              by_cases hc : i + (r - k) < i1
              · rw [if_pos ⟨hgt, hc⟩, if_pos ⟨by omega, hc⟩]
              · rw [if_neg (by tauto), if_neg (by tauto), hbr r hrk]
            · rw [if_neg (by omega), if_neg (by omega), hbr r hrk]
        by_cases h1 : base32_char_to_value ch = BASE32_INCORRECT_SYMBOL_ENCOUNTED
        · rw [if_pos h1] at h
          cases h
        · rw [if_neg h1] at h
          by_cases h2 : base32_char_to_value ch = BASE32_PADDING_ENCOUNTED
          · rw [if_pos h2] at h
            obtain ⟨hle, hbuf⟩ := ih _ _ _ _ _ _ h
            refine ⟨by omega, hfix _ i1 buf hle ?_ ?_ hbuf⟩
            · unfold charValue
              rw [h2]
              simp [store, BASE32_PADDING_ENCOUNTED]
            · intro r hrk
              simp [store, hrk]
          · rw [if_neg h2] at h
            cases pad with
            | true =>
              simp only [if_true] at h
              cases h
            | false =>
              simp only [Bool.false_eq_true, if_false] at h
              obtain ⟨hle, hbuf⟩ := ih _ _ _ _ _ _ h
              refine ⟨by omega, hfix _ i1 buf hle ?_ ?_ hbuf⟩
              · unfold charValue
                have hnn : 0 ≤ base32_char_to_value ch := by
                  rcases char_class ch with ⟨_, v, _, hv⟩ | ⟨_, hv⟩ | ⟨_, _, hv⟩
                  · rw [hv]; omega
                  · exact absurd hv h2
                  · exact absurd hv h1
                rw [if_pos hnn]
                simp [store]
              · intro r hrk
                simp [store, hrk]

/-- The inner loop of the decoder on group `g` of a NUL-free string: it fails when the group
holds an offending position, and otherwise leaves the values of the group in the buffer. -/
theorem decodeGroup_values (s : List Nat) (hs : ∀ c ∈ s, c ≠ 0) (g : Nat) :
    ((∃ p, 8 * g ≤ p ∧ p < 8 * g + 8 ∧ Offending s p) ∧
      decodeGroup s 8 0 (min (8 * g) s.length) (fun _ => 0) false = GroupResult.incorrect) ∨
    ((¬ ∃ p, 8 * g ≤ p ∧ p < 8 * g + 8 ∧ Offending s p) ∧
      ∃ buf, decodeGroup s 8 0 (min (8 * g) s.length) (fun _ => 0) false
          = GroupResult.done (min (8 * (g + 1)) s.length) buf ∧
        ∀ r, buf r = groupValue s g r) := by
  rcases decodeGroup_char s hs 8 0 (min (8 * g) s.length) (fun _ => 0) false
    (Nat.min_le_right _ _) with ⟨hbad, hres⟩ | ⟨hgood, buf, hres⟩
  · exact Or.inl ⟨(groupBad_iff_offending s g).mp hbad, hres⟩
  · refine Or.inr ⟨fun h => hgood ((groupBad_iff_offending s g).mpr h), buf, ?_, ?_⟩
    · rw [hres]
      congr 1
      omega
    · intro r
      obtain ⟨_, hbuf⟩ := decodeGroup_buf s _ _ _ _ _ _ _ hres
      rw [hbuf r]
      unfold groupValue
      rw [Nat.sub_zero]
      by_cases hle : 8 * g ≤ s.length
      · rw [Nat.min_eq_left hle]
        by_cases hc : r < 8 ∧ 8 * g + r < s.length
        · rw [if_pos ⟨Nat.zero_le _, by omega⟩, if_pos hc]
        · rw [if_neg (by omega), if_neg hc]
      · rw [Nat.min_eq_right (by omega), if_neg (by omega), if_neg (by omega)]

/-- The decoder loop on a NUL-free string from group `g0` on, in full: either it fails at
the first group `g` that holds an offending position, having written the bytes of the
groups `g0 .. g - 1`, or it succeeds, having written every byte below `out_limit`. -/
theorem decodeLoop_general (s : List Nat) (hs : ∀ c ∈ s, c ≠ 0) (lim : Nat) :
    ∀ (fuel g0 : Nat) (m : Mem), lim ≤ 5 * g0 + 5 * fuel →
      ∃ r, decodeLoop s lim fuel (min (8 * g0) s.length) (5 * g0) m = some r ∧
        ((r.code = BASE32_INCORRECT_SYMBOL_ENCOUNTED ∧
            ∃ g, g0 ≤ g ∧ 5 * g < lim ∧ (∃ p, 8 * g ≤ p ∧ p < 8 * g + 8 ∧ Offending s p) ∧
              (∀ p, 8 * g0 ≤ p → p < 8 * g → ¬ Offending s p) ∧
              ∀ p, r.out p = if 5 * g0 ≤ p ∧ p < 5 * g then decodedByte s p else m p) ∨
          (r.code = BASE32_OK ∧
            (∀ p, 8 * g0 ≤ p → p < 8 * ((lim + 4) / 5) → ¬ Offending s p) ∧
            ∀ p, r.out p = if 5 * g0 ≤ p ∧ p < lim then decodedByte s p else m p)) := by
  intro fuel
  induction fuel with
  | zero =>
    intro g0 m hf
    refine ⟨⟨BASE32_OK, m⟩, ?_, Or.inr ⟨rfl, ?_, ?_⟩⟩
    · simp only [decodeLoop]
      rw [if_neg (by omega)]
    · intro p h1 h2
      omega
    · intro p
      rw [if_neg (by omega)]
  | succ fuel ih =>
    intro g0 m hf
    by_cases hlt : 5 * g0 < lim
    · simp only [decodeLoop]
      rw [if_pos hlt]
      rcases decodeGroup_values s hs g0 with ⟨hbad, hres⟩ | ⟨hgood, buf, hres, hbuf⟩
      · rw [hres]
        refine ⟨⟨BASE32_INCORRECT_SYMBOL_ENCOUNTED, m⟩, rfl, Or.inl ⟨rfl, g0, le_refl _, hlt,
          hbad, ?_, ?_⟩⟩
        · intro p h1 h2
          omega
        · intro p
          rw [if_neg (by omega)]
      · rw [hres]
        have e5 : 5 * g0 + 5 = 5 * (g0 + 1) := by ring
        simp only [e5]
        obtain ⟨r, hr, hcase⟩ := ih (g0 + 1)
          (decodeBytes buf (if lim - 5 * g0 < 5 then lim - 5 * g0 else 5) (5 * g0) m)
          (by omega)
        have hstep : ∀ p, decodeBytes buf (if lim - 5 * g0 < 5 then lim - 5 * g0 else 5)
            (5 * g0) m p =
            if 5 * g0 ≤ p ∧ p < 5 * g0 + 5 ∧ p < lim then decodedByte s p else m p := by
          intro p
          rw [decodeBytes_at _ _ _ _ _ (by split_ifs <;> omega)]
          by_cases hc : 5 * g0 ≤ p ∧ p < 5 * g0 + 5 ∧ p < lim
          · rw [if_pos (by split_ifs <;> omega), if_pos hc]
            unfold decodedByte
            have e1 : p / 5 = g0 := by omega
            have e2 : p % 5 = p - 5 * g0 := by omega
            rw [e1, e2]
            exact groupByte_congr _ _ _ hbuf
          · rw [if_neg (by split_ifs <;> omega), if_neg hc]
        have hoff : ∀ p, 8 * g0 ≤ p → p < 8 * (g0 + 1) → ¬ Offending s p := by
          intro p h1 h2 h3
          exact hgood ⟨p, h1, by omega, h3⟩
        refine ⟨r, hr, ?_⟩
        rcases hcase with ⟨hc, g, hg1, hg2, hg3, hg4, hg5⟩ | ⟨hc, hno, hout⟩
        · refine Or.inl ⟨hc, g, by omega, hg2, hg3, ?_, ?_⟩
          · intro p h1 h2
            by_cases hp : p < 8 * (g0 + 1)
            · exact hoff p h1 hp
            · exact hg4 p (by omega) h2
          · intro p
            rw [hg5 p, hstep p]
            split_ifs <;> first | rfl | (exfalso; omega)
        · refine Or.inr ⟨hc, ?_, ?_⟩
          · intro p h1 h2
            by_cases hp : p < 8 * (g0 + 1)
            · exact hoff p h1 hp
            · exact hno p (by omega) h2
          · intro p
            rw [hout p, hstep p]
            split_ifs <;> first | rfl | (exfalso; omega)
    · refine ⟨⟨BASE32_OK, m⟩, ?_, Or.inr ⟨rfl, ?_, ?_⟩⟩
      · simp only [decodeLoop]
        rw [if_neg hlt]
      · intro p h1 h2
        omega
      · intro p
        rw [if_neg (by omega)]

/-- The decoder on a NUL-free string, in full. -/
theorem base32_decode_general (s : List Nat) (hs : ∀ c ∈ s, c ≠ 0) (dec : Mem) (lim : Nat) :
    ∃ r, base32_decode s dec lim = some r ∧
      ((r.code = BASE32_INCORRECT_SYMBOL_ENCOUNTED ∧
          ∃ g, 5 * g < lim ∧ (∃ p, 8 * g ≤ p ∧ p < 8 * g + 8 ∧ Offending s p) ∧
            (∀ p, p < 8 * g → ¬ Offending s p) ∧
            ∀ p, r.out p = if p < 5 * g then decodedByte s p else dec p) ∨
        (r.code = BASE32_OK ∧
          (∀ p, p < 8 * ((lim + 4) / 5) → ¬ Offending s p) ∧
          ∀ p, r.out p = if p < lim then decodedByte s p else dec p)) := by
  obtain ⟨r, h1, h2⟩ := decodeLoop_general s hs lim lim 0 dec (by omega)
  refine ⟨r, by simpa [base32_decode] using h1, ?_⟩
  rcases h2 with ⟨hc, g, _, hg2, hg3, hg4, hg5⟩ | ⟨hc, hno, hout⟩
  · refine Or.inl ⟨hc, g, hg2, hg3, fun p hp => hg4 p (by omega) hp, ?_⟩
    intro p
    rw [hg5 p]
    split_ifs <;> first | rfl | (exfalso; omega)
  · refine Or.inr ⟨hc, fun p hp => hno p (by omega) hp, ?_⟩
    intro p
    rw [hout p]
    split_ifs <;> first | rfl | (exfalso; omega)

theorem groupByte_zero (b : Nat → Nat) (t : Nat) (h : ∀ r, b r = 0) : groupByte b t = 0 := by
  unfold groupByte
  simp only [h]
  split_ifs <;> rfl

theorem decodedByte_zero (s : List Nat) (p : Nat) (h : 5 * ((s.length + 7) / 8) ≤ p) :
    decodedByte s p = 0 := by
  unfold decodedByte
  apply groupByte_zero
  intro r
  unfold groupValue
  rw [if_neg (by omega)]

/-- C15. Zero-fill continuation: for every (NUL-free) string `s` on which `base32_decode`
succeeds and every `out_limit`, every output byte below `out_limit` is written (it is
`decodedByte s p`, whatever the buffer held before), and every output byte at an index `i`
with `5 * ceil(strlen(s) / 8) ≤ i < out_limit` is 0; hence decoding the string written by
`base32_encode` for `B` into a larger buffer yields `B` followed by zero bytes up to
`out_limit`. -/
theorem base32_decode_zero_fill :
    (∀ (s : List Nat) (dec : Mem) (out_limit : Nat), (∀ c ∈ s, c ≠ 0) →
      ∃ r, base32_decode s dec out_limit = some r ∧
        (r.code = BASE32_OK →
          (∀ p, p < out_limit → r.out p = decodedByte s p) ∧
          (∀ p, 5 * ((s.length + 7) / 8) ≤ p → p < out_limit → r.out p = 0))) ∧
    (∀ (B : List Byte) (out dec : Mem) (out_limit : Nat), B.length ≤ out_limit →
      ∃ enc s r, base32_encode B B.length out = some enc ∧ HoldsCStr enc s ∧
        base32_decode s dec out_limit = some r ∧ r.code = BASE32_OK ∧
        (∀ (k : Nat) (hk : k < B.length), r.out k = (B.get ⟨k, hk⟩).val) ∧
        (∀ k, B.length ≤ k → k < out_limit → r.out k = 0)) := by
  refine ⟨?_, ?_⟩
  · intro s dec out_limit hs
    obtain ⟨r, h1, h2⟩ := base32_decode_general s hs dec out_limit
    refine ⟨r, h1, ?_⟩
    intro hok
    rcases h2 with ⟨hc, _⟩ | ⟨_, _, hout⟩
    · rw [hok] at hc
      exact absurd hc.symm incorrect_ne_ok
    · refine ⟨?_, ?_⟩
      · intro p hp
        rw [hout p, if_pos hp]
      · intro p hp1 hp2
        rw [hout p, if_pos hp2, decodedByte_zero s p hp1]
  · intro B out dec out_limit hlim
    obtain ⟨enc, h1, h2, _⟩ := base32_encode_holds B out
    obtain ⟨r, h3, h4, h5⟩ := base32_decode_of_encode B dec out_limit
    refine ⟨enc, rfc4648_encode B, r, h1, h2, h3, h4, ?_, ?_⟩
    · intro k hk
      rw [h5 k, if_pos (by omega), byteAt_eq_get B k hk]
    · intro k hk1 hk2
      rw [h5 k, if_pos hk2, byteAt_of_le B k hk1]

/-- Witness of C15: "MY======" decoded into 12 bytes, and the byte `f` encoded and decoded
into 12 bytes. -/
theorem base32_decode_zero_fill_witness :
    ((∀ c ∈ charsOf ("MY======"), c ≠ 0) ∧
      ∃ r, base32_decode (charsOf ("MY======")) (fun _ => 126) 12 = some r ∧
        (r.code = BASE32_OK →
          ∀ p, 5 * (((charsOf ("MY======")).length + 7) / 8) ≤ p → p < 12 → r.out p = 0)) ∧
    (([102] : List Byte).length ≤ 12 ∧
      ∃ enc s r, base32_encode ([102] : List Byte) 1 (fun _ => 126) = some enc ∧
        HoldsCStr enc s ∧ base32_decode s (fun _ => 126) 12 = some r ∧
        r.code = BASE32_OK ∧ r.out 0 = 102 ∧ r.out 1 = 0 ∧ r.out 11 = 0) := by
  refine ⟨⟨by decide, ?_⟩, ⟨by decide, ?_⟩⟩
  · obtain ⟨r, h1, h2⟩ :=
      base32_decode_zero_fill.1 (charsOf ("MY======")) (fun _ => 126) 12 (by decide)
    exact ⟨r, h1, fun hok => (h2 hok).2⟩
  · obtain ⟨enc, s, r, h1, h2, h3, h4, h5, h6⟩ :=
      base32_decode_zero_fill.2 [102] (fun _ => 126) (fun _ => 126) 12 (by decide)
    exact ⟨enc, s, r, h1, h2, h3, h4, h5 0 (by decide), h6 1 (by decide) (by decide),
      h6 11 (by decide) (by decide)⟩

/-- C17. Partial output on error: if `base32_decode` fails on the (NUL-free) string `s`
and `g` is the index of the first group of 8 characters that holds an offending character,
then the output bytes `0 .. 5g - 1` hold the bytes decoded from the `g` groups before it
(they are what the successful call with `out_limit = 5g` writes) and every output byte at
an index `≥ 5g` is unchanged. -/
theorem base32_decode_partial_output (s : List Nat) (dec : Mem) (out_limit : Nat)
    (hs : ∀ c ∈ s, c ≠ 0) :
    ∃ r, base32_decode s dec out_limit = some r ∧
      (r.code = BASE32_INCORRECT_SYMBOL_ENCOUNTED →
        ∃ g, (∃ p, 8 * g ≤ p ∧ p < 8 * g + 8 ∧ Offending s p) ∧
          (∀ p, p < 8 * g → ¬ Offending s p) ∧
          (∀ p, p < 5 * g → r.out p = decodedByte s p) ∧
          (∀ p, 5 * g ≤ p → r.out p = dec p) ∧
          ∃ r0, base32_decode s dec (5 * g) = some r0 ∧ r0.code = BASE32_OK ∧
            ∀ p, r.out p = r0.out p) := by
  obtain ⟨r, h1, h2⟩ := base32_decode_general s hs dec out_limit
  refine ⟨r, h1, ?_⟩
  intro hfail
  rcases h2 with ⟨_, g, _, hg3, hg4, hg5⟩ | ⟨hc, _⟩
  · refine ⟨g, hg3, hg4, ?_, ?_, ?_⟩
    · intro p hp
      rw [hg5 p, if_pos hp]
    · intro p hp
      rw [hg5 p, if_neg (by omega)]
    · obtain ⟨r0, h01, h02⟩ := base32_decode_general s hs dec (5 * g)
      refine ⟨r0, h01, ?_⟩
      rcases h02 with ⟨_, g', hlt, ⟨p, hp1, hp2, hp3⟩, _⟩ | ⟨hc0, _, hout0⟩
      · exact absurd hp3 (hg4 p (by omega))
      · refine ⟨hc0, ?_⟩
        intro p
        rw [hg5 p, hout0 p]
  · rw [hfail] at hc
    exact absurd hc incorrect_ne_ok

/-- Witness of C17: "MZXW6YTBa" fails in its second group; five bytes stay written. -/
theorem base32_decode_partial_output_witness :
    (∀ c ∈ charsOf ("MZXW6YTBa"), c ≠ 0) ∧
    ∃ r, base32_decode (charsOf ("MZXW6YTBa")) (fun _ => 126) 10 = some r ∧
      r.code = BASE32_INCORRECT_SYMBOL_ENCOUNTED ∧
      ∃ g, (∃ p, 8 * g ≤ p ∧ p < 8 * g + 8 ∧ Offending (charsOf ("MZXW6YTBa")) p) ∧
        (∀ p, p < 5 * g → r.out p = decodedByte (charsOf ("MZXW6YTBa")) p) ∧
        (∀ p, 5 * g ≤ p → r.out p = 126) := by
  refine ⟨by decide, ?_⟩
  obtain ⟨r, h1, h2⟩ :=
    base32_decode_partial_output (charsOf ("MZXW6YTBa")) (fun _ => 126) 10 (by decide)
  have hcode : (base32_decode (charsOf ("MZXW6YTBa")) (fun _ => 126) 10).map
      DecodeResult.code = some BASE32_INCORRECT_SYMBOL_ENCOUNTED := by decide
  rw [h1] at hcode
  have hf : r.code = BASE32_INCORRECT_SYMBOL_ENCOUNTED := Option.some.inj hcode
  obtain ⟨g, h3, _, h5, h6, _⟩ := h2 hf
  exact ⟨r, h1, hf, g, h3, h5, h6⟩

theorem padTo8_length (s : List Nat) : (padTo8 s).length = 8 * ((s.length + 7) / 8) := by
  unfold padTo8
  rw [List.length_append, List.length_replicate]
  omega

theorem padTo8_getD_lt (s : List Nat) (p : Nat) (h : p < s.length) :
    (padTo8 s).getD p 0 = s.getD p 0 := by
  unfold padTo8
  rw [List.getD_append _ _ _ _ h]

theorem padTo8_getD_ge (s : List Nat) (p : Nat) (h1 : s.length ≤ p)
    (h2 : p < (padTo8 s).length) : (padTo8 s).getD p 0 = 61 := by
  have hl := padTo8_length s
  unfold padTo8 at *
  rw [List.length_append, List.length_replicate] at h2
  rw [List.getD_append_right _ _ _ _ h1, List.getD_eq_getElem _ _ (by
    rw [List.length_replicate]; omega)]
  simp [BASE32_PADDING_SYMBOL]

theorem padTo8_ne_zero (s : List Nat) (hs : ∀ c ∈ s, c ≠ 0) : ∀ c ∈ padTo8 s, c ≠ 0 := by
  intro c hc
  unfold padTo8 at hc
  rw [List.mem_append] at hc
  rcases hc with hc | hc
  · exact hs c hc
  · rw [List.eq_of_mem_replicate hc]
    decide

theorem pad_not_invalid : ¬ IsInvalidChar 61 := by
  unfold IsInvalidChar
  decide

theorem pad_not_value : ¬ IsValueChar 61 := by
  unfold IsValueChar
  omega

theorem offending_padTo8 (s : List Nat) (p : Nat) : Offending (padTo8 s) p ↔ Offending s p := by
  unfold Offending
  constructor
  · rintro ⟨h1, h2⟩
    have hp : p < s.length := by
      by_contra hge
      rw [padTo8_getD_ge s p (by omega) h1] at h2
      rcases h2 with h2 | ⟨h2, _⟩
      · exact pad_not_invalid h2
      · exact pad_not_value h2
    rw [padTo8_getD_lt s p hp] at h2
    refine ⟨hp, ?_⟩
    rcases h2 with h2 | ⟨h2, q, hq1, hq2, hq3⟩
    · exact Or.inl h2
    · rw [padTo8_getD_lt s q (by omega)] at hq3
      exact Or.inr ⟨h2, q, hq1, hq2, hq3⟩
  · rintro ⟨h1, h2⟩
    have hl := padTo8_length s
    refine ⟨by omega, ?_⟩
    rw [padTo8_getD_lt s p h1]
    rcases h2 with h2 | ⟨h2, q, hq1, hq2, hq3⟩
    · exact Or.inl h2
    · refine Or.inr ⟨h2, q, hq1, hq2, ?_⟩
      rw [padTo8_getD_lt s q (by omega)]
      exact hq3

theorem charValue_pad : charValue 61 = 0 := by decide

theorem groupValue_padTo8 (s : List Nat) (g r : Nat) :
    groupValue (padTo8 s) g r = groupValue s g r := by
  unfold groupValue
  by_cases h1 : r < 8 ∧ 8 * g + r < s.length
  · have hl := padTo8_length s
    rw [if_pos ⟨h1.1, by omega⟩, if_pos h1, padTo8_getD_lt s _ h1.2]
  · rw [if_neg h1]
    by_cases h2 : r < 8 ∧ 8 * g + r < (padTo8 s).length
    · rw [if_pos h2, padTo8_getD_ge s _ (by omega) h2.2, charValue_pad]
    · rw [if_neg h2]

theorem decodedByte_padTo8 (s : List Nat) (p : Nat) :
    decodedByte (padTo8 s) p = decodedByte s p := by
  unfold decodedByte
  exact groupByte_congr _ _ _ (groupValue_padTo8 s (p / 5))

/-- Decoding a NUL-free string and decoding it right-extended with `=` to a multiple of 8
give the same code and the same output. -/
theorem base32_decode_padTo8 (s : List Nat) (hs : ∀ c ∈ s, c ≠ 0) (dec : Mem) (lim : Nat) :
    ∃ r r', base32_decode s dec lim = some r ∧ base32_decode (padTo8 s) dec lim = some r' ∧
      r.code = r'.code ∧ ∀ p, r.out p = r'.out p := by
  obtain ⟨r, h1, h2⟩ := base32_decode_general s hs dec lim
  obtain ⟨r', h1', h2'⟩ := base32_decode_general (padTo8 s) (padTo8_ne_zero s hs) dec lim
  refine ⟨r, r', h1, h1', ?_⟩
  rcases h2 with ⟨hc, g, hg2, ⟨p, hp1, hp2, hp3⟩, hg4, hg5⟩ | ⟨hc, hno, hout⟩
  · rcases h2' with ⟨hc', g', hg2', ⟨p', hp1', hp2', hp3'⟩, hg4', hg5'⟩ | ⟨hc', hno', hout'⟩
    · have hgg : g = g' := by
        by_contra hne
        rcases Nat.lt_or_gt_of_ne hne with hlt | hgt
        · exact hg4' p (by omega) ((offending_padTo8 s p).mpr hp3)
        · exact hg4 p' (by omega) ((offending_padTo8 s p').mp hp3')
      subst hgg
      refine ⟨by rw [hc, hc'], ?_⟩
      intro q
      rw [hg5 q, hg5' q, decodedByte_padTo8]
    · exact absurd ((offending_padTo8 s p).mpr hp3) (hno' p (by omega))
  · rcases h2' with ⟨hc', g', hg2', ⟨p', hp1', hp2', hp3'⟩, hg4', hg5'⟩ | ⟨hc', hno', hout'⟩
    · exact absurd ((offending_padTo8 s p').mp hp3') (hno p' (by omega))
    · refine ⟨by rw [hc, hc'], ?_⟩
      intro q
      rw [hout q, hout' q, decodedByte_padTo8]

/-- The reference encoding with trailing `=` removed, right-extended again, is the
reference encoding. -/
theorem padTo8_of_stripped (B : List Byte) (t : List Nat) (k : Nat)
    (h : rfc4648_encode B = t ++ List.replicate k 61) : padTo8 t = rfc4648_encode B := by
  have hlen : (B.length + 4) / 5 * 8 = t.length + k := by
    rw [← rfc4648_encode_length, h, List.length_append, List.length_replicate]
  have hk : k ≤ 6 := by
    by_contra hgt
    have hpos : t.length < (B.length + 4) / 5 * 8 := by omega
    have h61 : (rfc4648_encode B).getD t.length 0 = 61 := by
      rw [h, List.getD_append_right _ _ _ _ (le_refl _), Nat.sub_self,
        List.getD_eq_getElem _ _ (by rw [List.length_replicate]; omega)]
      simp
    rw [rfc4648_encode_getD B _ hpos, rfc4648_symbol_eq_pad_iff] at h61
    omega
  have hk' : (8 - t.length % 8) % 8 = k := by omega
  unfold padTo8 BASE32_PADDING_SYMBOL
  rw [hk', h]

/-- C16. Missing symbols decode like padding: for every (NUL-free) string `s`, every prior
buffer content and every `out_limit`, `base32_decode` of `s` returns the same code and
leaves the same output as `base32_decode` of `s` right-extended with `=` to a length that
is a multiple of 8; in particular, for every byte sequence `B`, decoding the string
written by `base32_encode` with trailing `=` characters removed (`out_limit ≥ len(B)`)
returns `BASE32_OK` with the first `len(B)` bytes equal to `B`. -/
theorem base32_decode_missing_padding :
    (∀ (s : List Nat) (dec : Mem) (out_limit : Nat), (∀ c ∈ s, c ≠ 0) →
      ∃ r r', base32_decode s dec out_limit = some r ∧
        base32_decode (padTo8 s) dec out_limit = some r' ∧
        r.code = r'.code ∧ ∀ p, r.out p = r'.out p) ∧
    (∀ (B : List Byte) (out dec : Mem) (out_limit : Nat), B.length ≤ out_limit →
      ∃ enc, base32_encode B B.length out = some enc ∧ HoldsCStr enc (rfc4648_encode B) ∧
        ∀ (t : List Nat) (k : Nat),
          rfc4648_encode B = t ++ List.replicate k BASE32_PADDING_SYMBOL →
          ∃ r, base32_decode t dec out_limit = some r ∧ r.code = BASE32_OK ∧
            ∀ (i : Nat) (hi : i < B.length), r.out i = (B.get ⟨i, hi⟩).val) := by
  refine ⟨fun s dec out_limit hs => base32_decode_padTo8 s hs dec out_limit, ?_⟩
  intro B out dec out_limit hlim
  obtain ⟨enc, h1, h2, _⟩ := base32_encode_holds B out
  refine ⟨enc, h1, h2, ?_⟩
  intro t k ht
  have hpad : padTo8 t = rfc4648_encode B := padTo8_of_stripped B t k ht
  have hnz : ∀ c ∈ t, c ≠ 0 := by
    intro c hc
    apply rfc4648_encode_ne_zero B c
    rw [ht]
    exact List.mem_append_left _ hc
  obtain ⟨r, r', h3, h4, h5, h6⟩ := base32_decode_padTo8 t hnz dec out_limit
  obtain ⟨r2, h7, h8, h9⟩ := base32_decode_of_encode B dec out_limit
  rw [hpad, h7] at h4
  have e : r2 = r' := Option.some.inj h4
  subst e
  refine ⟨r, h3, by rw [h5, h8], ?_⟩
  intro i hi
  rw [h6 i, h9 i, if_pos (by omega), byteAt_eq_get B i hi]

/-- Witness of C16: "MY" decodes like "MY======", and the encoding of `f` without its six
`=` decodes to `f`. -/
theorem base32_decode_missing_padding_witness :
    ((∀ c ∈ charsOf ("MY"), c ≠ 0) ∧ padTo8 (charsOf ("MY")) = charsOf ("MY======") ∧
      ∃ r r', base32_decode (charsOf ("MY")) (fun _ => 126) 5 = some r ∧
        base32_decode (padTo8 (charsOf ("MY"))) (fun _ => 126) 5 = some r' ∧
        r.code = r'.code ∧ ∀ p, r.out p = r'.out p) ∧
    (([102] : List Byte).length ≤ 5 ∧
      rfc4648_encode ([102] : List Byte)
        = charsOf ("MY") ++ List.replicate 6 BASE32_PADDING_SYMBOL ∧
      ∃ enc, base32_encode ([102] : List Byte) 1 (fun _ => 126) = some enc ∧
        HoldsCStr enc (rfc4648_encode ([102] : List Byte)) ∧
        ∃ r, base32_decode (charsOf ("MY")) (fun _ => 126) 5 = some r ∧
          r.code = BASE32_OK ∧ r.out 0 = 102) := by
  refine ⟨⟨by decide, by decide, ?_⟩, ⟨by decide, by decide, ?_⟩⟩
  · exact base32_decode_missing_padding.1 (charsOf ("MY")) (fun _ => 126) 5 (by decide)
  · obtain ⟨enc, h1, h2, h3⟩ :=
      base32_decode_missing_padding.2 [102] (fun _ => 126) (fun _ => 126) 5 (by decide)
    obtain ⟨r, h4, h5, h6⟩ := h3 (charsOf ("MY")) 6 (by decide)
    exact ⟨enc, h1, h2, r, h4, h5, h6 0 (by decide)⟩

end Base32
